import Mathlib

/-!
Verification development for the Avero ACC-matching analysis scripts.

We give a shallow embedding of the session-construction, flicker-merge,
occupancy-replay and group-evaluation logic of the repository
(`scripts/acc-group-eval.py`, `scripts/acc-exit-window-report.py`,
`scripts/acc-replay-analysis.py`, `scripts/acc-person2-review.py`) and
prove properties of the embedded definitions.

Conventions of the embedding:
* Timestamps are integers (epoch milliseconds).  The Python sources keep
  some timestamps as `datetime` values and compare second-valued gaps via
  `total_seconds()`; since those values are millisecond-precise, comparing
  a gap against a threshold of `g` seconds is equivalent to comparing the
  millisecond difference against `g * 1000`, so the embedded functions take
  millisecond thresholds.
* Python `dict`s (insertion ordered, unique keys) are embedded as
  association lists with insertion-order preserving operations.
* `list.sort` (a stable sort) is embedded as a stable insertion sort.
-/

namespace Avero

/-! ## Generic helpers: ordered association lists and a stable sort -/

/-- Python `d[k] = v`: overwrite in place if the key exists, else append. -/
def alistInsert {κ ν : Type} [BEq κ] (k : κ) (v : ν) : List (κ × ν) → List (κ × ν)
  | [] => [(k, v)]
  | (k0, v0) :: rest =>
    if k0 == k then (k0, v) :: rest else (k0, v0) :: alistInsert k v rest

/-- Python `d.get(k)`. -/
def alistLookup {κ ν : Type} [BEq κ] (k : κ) : List (κ × ν) → Option ν
  | [] => none
  | (k0, v0) :: rest => if k0 == k then some v0 else alistLookup k rest

/-- Python `d.pop(k, None)`: the removal part (keys are unique). -/
def alistErase {κ ν : Type} [BEq κ] (k : κ) : List (κ × ν) → List (κ × ν)
  | [] => []
  | (k0, v0) :: rest => if k0 == k then rest else (k0, v0) :: alistErase k rest

/-- Python `defaultdict(list); d[k].append(v)`: append to the entry of `k`,
creating it at the end on first use. -/
def alistAppend {κ ν : Type} [BEq κ] (k : κ) (v : ν) :
    List (κ × List ν) → List (κ × List ν)
  | [] => [(k, [v])]
  | (k0, vs) :: rest =>
    if k0 == k then (k0, vs ++ [v]) :: rest else (k0, vs) :: alistAppend k v rest

/-- Insert into a sorted list, before the first element that is not
strictly smaller (this makes `sortBy` stable, like Python `list.sort`). -/
def insertLe {α : Type} (le : α → α → Bool) (a : α) : List α → List α
  | [] => [a]
  | b :: rest => if le a b then a :: b :: rest else b :: insertLe le a rest

/-- Stable insertion sort, embedding Python `list.sort(key=...)`. -/
def sortBy {α : Type} (le : α → α → Bool) : List α → List α
  | [] => []
  | a :: rest => insertLe le a (sortBy le rest)

/-! ## Data model: sessions and journey events

`Session` embeds the `[zone, entry_ts, end_ts]` triples built by
`build_raw_sessions` (acc-group-eval.py lines 22-48); an unclosed session
has `stop = none` (the Python uses `None`), and the `closed` flag of the
specification is `stop.isSome`. -/

structure Session where
  zone : String
  start : Int
  stop : Option Int
deriving DecidableEq

/-- Comparison used for `sessions.sort(key=lambda s: s[1])`. -/
def sessLE (a b : Session) : Bool := decide (a.start ≤ b.start)

/-- A per-person journey event as consumed by `build_raw_sessions`:
`type`, parsed `ts`, and `data.zone` (absent or empty zones are `none`;
an empty string is falsy in Python, hence equivalent to absent here). -/
structure JEvent where
  etype : String
  ts : Int
  zone : Option String
deriving DecidableEq

/-! ## Session Builder (`build_raw_sessions`, acc-group-eval.py 22-48) -/

/-- Python `zone.startswith("POS_")`: the first four characters are
`POS_` (stated over the character list, which is what the kernel can
evaluate). -/
def startsWithPOS (z : String) : Bool := z.data.take 4 == "POS_".data

/-- One iteration of the event loop of `build_raw_sessions`: state is
(emitted sessions, open-entry dict keyed by zone). -/
def raw_step (acc : List Session × List (String × Int)) (e : JEvent) :
    List Session × List (String × Int) :=
  match e.zone with
  | none => acc
  | some z =>
    if startsWithPOS z then
      if e.etype == "zone_entry" then
        (acc.1, alistInsert z e.ts acc.2)
      else if e.etype == "zone_exit" then
        match alistLookup z acc.2 with
        | some st => (acc.1 ++ [⟨z, st, some e.ts⟩], alistErase z acc.2)
        | none => acc
      else acc
    else acc

/-- `build_raw_sessions`: run the loop, append still-open zones as
unclosed sessions (in dict insertion order), sort by start. -/
def build_raw_sessions (events : List JEvent) : List Session :=
  let p := events.foldl raw_step ([], [])
  sortBy sessLE (p.1 ++ p.2.map fun kv => { zone := kv.1, start := kv.2, stop := none })

/-! ## Session Merger (`merge_sessions`, acc-group-eval.py 62-105) -/

/-- `sessions_overlap` (acc-group-eval.py 51-59).  In this embedding the
start of a range is always a concrete timestamp, so the source's
`start2 is None` guard is vacuous and omitted; both ends may be open. -/
def sessions_overlap (start1 : Int) (end1 : Option Int) (start2 : Int)
    (end2 : Option Int) : Bool :=
  match end2, end1 with
  | none, none => true
  | none, some e1 => decide (start2 ≤ e1)
  | some e2, none => decide (start1 ≤ e2)
  | some e2, some e1 => decide (start2 ≤ e1) && decide (start1 ≤ e2)

/-- `by_zone`: group sessions by zone, zones in first-occurrence order,
sessions of one zone in input order (a `defaultdict(list)` loop). -/
def byZone (raw : List Session) : List (String × List Session) :=
  raw.foldl (fun m s => alistAppend s.zone s m) []

/-- `other_pos_between(zone, start, end)`: any session of a different
zone overlapping the range. -/
def other_pos_between (bz : List (String × List Session)) (zone : String)
    (start stop : Int) : Bool :=
  bz.any fun p => (!(p.1 == zone)) &&
    p.2.any fun o => sessions_overlap start (some stop) o.start o.stop

/-- `should_split(cur_end, nxt_start, zone)`; `gap_ms` is the gap
threshold in milliseconds (`gap_s * 1000`), `none` meaning no threshold. -/
def should_split (gap_ms : Option Int) (bz : List (String × List Session))
    (zone : String) (cur_end : Option Int) (nxt_start : Int) : Bool :=
  match cur_end with
  | none => true
  | some ce =>
    (match gap_ms with
     | none => false
     | some g => decide (nxt_start - ce > g)) ||
    other_pos_between bz zone ce nxt_start

/-- The left-to-right fold over one zone's sorted sessions: `current`
accumulates; on split emit it, otherwise absorb `nxt` by overwriting the
end (`current[2] = nxt[2]`). -/
def merge_zone_go (split : Option Int → Int → Bool) (cur : Session) :
    List Session → List Session
  | [] => [cur]
  | nxt :: rest =>
    if split cur.stop nxt.start then cur :: merge_zone_go split nxt rest
    else merge_zone_go split { cur with stop := nxt.stop } rest

/-- `merge_sessions(raw_sessions, gap)`: group by zone, sort each zone's
list by start, fold, concatenate in zone order, and sort the result. -/
def merge_sessions (raw : List Session) (gap_ms : Option Int) : List Session :=
  let bz := byZone raw
  let merged := (bz.map fun p =>
    match sortBy sessLE p.2 with
    | [] => []
    | c :: rest => merge_zone_go (should_split gap_ms bz p.1) c rest).flatten
  sortBy sessLE merged

/-! ## Occupancy Replayer (acc-replay-analysis.py)

`UnifiedEvent`, `RecentExit` and `AccResult` embed the dataclasses of
acc-replay-analysis.py (lines 28-64); `AccResult.ts_recv` is a pure
formatting of `ts_ms` and is omitted.  The statistics dictionary and the
`verbose` printing of `replay_and_evaluate` do not influence the returned
results and are likewise omitted. -/

structure UnifiedEvent where
  ts_ms : Int
  source : String
  event_type : String
  track_id : Option Int
  zone_id : Option Int
  receipt_id : Option String := none
  kiosk_ip : Option String := none
  pos_zone : Option String := none
deriving DecidableEq

structure RecentExit where
  track_id : Int
  exit_time : Int
deriving DecidableEq

structure AccResult where
  receipt_id : String
  ts_ms : Int
  pos_zone : String
  zone_id : Int
  kiosk_ip : String
  candidates : List Int
  person_count : Nat
  matched : Bool
  grace_candidates : Option (List Int)
  match_type : String
deriving DecidableEq

/-- `≤` on ids, for the `sorted(...)` calls. -/
def intLE (a b : Int) : Bool := decide (a ≤ b)

/-- A Python `set` of ids, embedded as a duplicate-free list; `set.add`. -/
def setAdd (t : Int) (l : List Int) : List Int := if t ∈ l then l else l ++ [t]

/-- `set.discard`. -/
def setDiscard (t : Int) (l : List Int) : List Int := l.filter fun x => !(x == t)

/-- The configuration handed to `replay_and_evaluate`. -/
structure ReplayCfg where
  pos_name_to_zone_id : List (String × Int)
  pos_zone_ids : List Int
  exit_grace_ms : Int
deriving DecidableEq

/-- The mutable state of the replay loop. -/
structure ReplayState where
  occupancy : Int → List Int
  recent_exits : Int → List RecentExit
  results : List AccResult

def initialReplayState : ReplayState :=
  { occupancy := fun _ => [], recent_exits := fun _ => [], results := [] }

/-- One iteration of the `for event in event_stream` loop of
`replay_and_evaluate` (acc-replay-analysis.py lines 235-326).  The parsers
(lines 125-133) only produce sensor events with both ids present, so an
id-less sensor event leaves the state unchanged here. -/
def replay_step (cfg : ReplayCfg) (st : ReplayState) (e : UnifiedEvent) :
    ReplayState :=
  if e.source == "xovis" then
    match e.zone_id, e.track_id with
    | some z, some t =>
      if z ∈ cfg.pos_zone_ids then
        if e.event_type == "ZONE_ENTRY" then
          { st with occupancy := fun w =>
              if w = z then setAdd t (st.occupancy w) else st.occupancy w }
        else if e.event_type == "ZONE_EXIT" then
          { st with
            occupancy := fun w =>
              if w = z then setDiscard t (st.occupancy w) else st.occupancy w,
            recent_exits := fun w =>
              if w = z then st.recent_exits w ++ [⟨t, e.ts_ms⟩]
              else st.recent_exits w }
        else st
      else st
    | _, _ => st
  else if e.source == "acc" then
    match e.pos_zone.bind (fun n => alistLookup n cfg.pos_name_to_zone_id) with
    | none => st
    | some z =>
      let candidates : List Int := sortBy intLE (st.occupancy z)
      let person_count := candidates.length
      let cutoff := e.ts_ms - cfg.exit_grace_ms
      let zone_exits := st.recent_exits z
      let grace0 : List Int :=
        (zone_exits.filter fun ex => decide (cutoff ≤ ex.exit_time)).map
          RecentExit.track_id
      let grace_candidates : List Int :=
        sortBy intLE ((grace0.filter fun x => !(candidates.contains x)).dedup)
      let match_type : String :=
        if person_count > 0 then "current"
        else if grace_candidates ≠ [] then "grace"
        else "none"
      let res : AccResult :=
        { receipt_id := e.receipt_id.getD ""
          ts_ms := e.ts_ms
          pos_zone := e.pos_zone.getD ""
          zone_id := z
          kiosk_ip := e.kiosk_ip.getD ""
          candidates := candidates
          person_count := person_count
          matched := person_count > 0 || grace_candidates ≠ []
          grace_candidates :=
            if grace_candidates ≠ [] then some grace_candidates else none
          match_type := match_type }
      { st with
        results := st.results ++ [res],
        recent_exits := fun w =>
          if w = z then
            (if zone_exits.length > 100 then
              zone_exits.filter fun ex => decide (cutoff ≤ ex.exit_time)
             else zone_exits)
          else st.recent_exits w }
  else st

/-- `replay_and_evaluate` over an already-merged event list. -/
def replay_and_evaluate (cfg : ReplayCfg) (events : List UnifiedEvent) :
    ReplayState :=
  events.foldl (replay_step cfg) initialReplayState

/-- The sort key of `merge_event_streams` (acc-replay-analysis.py 189-190):
`(ts_ms, 0 for xovis, 1 for acc)`. -/
def make_key (e : UnifiedEvent) : Int × Int :=
  (e.ts_ms, if e.source == "xovis" then 0 else 1)

/-- `≤` on merge keys. -/
def keyLE (a b : Int × Int) : Bool :=
  decide (a.1 < b.1) || (decide (a.1 = b.1) && decide (a.2 ≤ b.2))

/-- `merge_event_streams`: the stable two-way merge performed by
`heapq.merge` on the keyed streams (on equal keys the element of the first
stream — the sensor stream — is produced first). -/
def merge_event_streams :
    List UnifiedEvent → List UnifiedEvent → List UnifiedEvent
  | [], ys => ys
  | xs, [] => xs
  | x :: xs, y :: ys =>
    if keyLE (make_key x) (make_key y) then
      x :: merge_event_streams xs (y :: ys)
    else
      y :: merge_event_streams (x :: xs) ys
termination_by xs ys => xs.length + ys.length

/-- Is `e` a zone entry/exit of track `p` at zone `z`? -/
def isZoneEventFor (p z : Int) (e : UnifiedEvent) : Bool :=
  e.source == "xovis" &&
    (e.event_type == "ZONE_ENTRY" || e.event_type == "ZONE_EXIT") &&
    e.track_id == some p && e.zone_id == some z

/-- `p` entered `z` in `evs` and has not exited it afterwards: the last
entry/exit event of `(p, z)` in the list exists and is an entry. -/
def enteredNotExited (evs : List UnifiedEvent) (p z : Int) : Bool :=
  match (evs.filter (isZoneEventFor p z)).getLast? with
  | some e => e.event_type == "ZONE_ENTRY"
  | none => false

/-! ## Line-delimited readers (acc-replay-analysis.py 82-175)

A JSONL input line either is blank, fails top-level `json.loads`, or
yields a record.  In `stream_xovis_zone_events` only the *nested*
`json.loads(payload)` call sits in a `try/except`; the top-level parse of
the line (line 95) and the one of `load_acc_events` (line 154) are
unguarded, which the embedding reflects by returning `Except.error`. -/

structure SceneEv where
  category : String
  etype : String
  track_id : Option Int
  zone_id : Option Int
deriving DecidableEq

structure Frame where
  time : Option Int
  events : List SceneEv
deriving DecidableEq

inductive PayloadRaw where
  | bad : PayloadRaw
  | parsed : List Frame → PayloadRaw
deriving DecidableEq

inductive SensorLine where
  | blank : SensorLine
  | malformed : SensorLine
  | record : Option PayloadRaw → SensorLine
deriving DecidableEq

/-- Events of one frame (acc-replay-analysis.py 108-140). -/
def frameEvents (fr : Frame) : List UnifiedEvent :=
  match fr.time with
  | none => []
  | some t =>
    fr.events.filterMap fun ev =>
      if ev.category == "SCENE" &&
          (ev.etype == "ZONE_ENTRY" || ev.etype == "ZONE_EXIT") then
        match ev.track_id, ev.zone_id with
        | some tid, some zid =>
          some { ts_ms := t, source := "xovis", event_type := ev.etype,
                 track_id := some tid, zone_id := some zid }
        | _, _ => none
      else none

/-- `stream_xovis_zone_events` (drained into a list, as the replay loop
does): a blank line, a record without payload, and a record whose payload
fails the guarded nested parse are skipped; a line failing the unguarded
top-level parse raises. -/
def stream_xovis_zone_events : List SensorLine → Except Unit (List UnifiedEvent)
  | [] => .ok []
  | .blank :: rest => stream_xovis_zone_events rest
  | .malformed :: _ => .error ()
  | .record none :: rest => stream_xovis_zone_events rest
  | .record (some .bad) :: rest => stream_xovis_zone_events rest
  | .record (some (.parsed frames)) :: rest =>
    match stream_xovis_zone_events rest with
    | .error e => .error e
    | .ok evs => .ok ((frames.map frameEvents).flatten ++ evs)

structure AccFields where
  kiosk_ip : Option String
  receipt_id : Option String
  pos_zone : Option String
deriving DecidableEq

inductive AccLine where
  | blank : AccLine
  | malformed : AccLine
  | record : Option Int → AccFields → AccLine
deriving DecidableEq

/-- The line loop of `load_acc_events` (acc-replay-analysis.py 147-173);
the first component of a `record` is the parsed `ts_recv` (in ms), `none`
when the field is missing or falsy. -/
def load_acc_go (ip_to_pos : List (String × String)) :
    List AccLine → Except Unit (List UnifiedEvent)
  | [] => .ok []
  | .blank :: rest => load_acc_go ip_to_pos rest
  | .malformed :: _ => .error ()
  | .record ts f :: rest =>
    match ts with
    | none => load_acc_go ip_to_pos rest
    | some ms =>
      let kiosk := f.kiosk_ip.getD "unknown"
      let pz : Option String :=
        match f.pos_zone with
        | some s => some s
        | none => alistLookup kiosk ip_to_pos
      match load_acc_go ip_to_pos rest with
      | .error e => .error e
      | .ok evs =>
        .ok ({ ts_ms := ms, source := "acc", event_type := "ACC",
               track_id := none, zone_id := none,
               receipt_id := f.receipt_id, kiosk_ip := some kiosk,
               pos_zone := pz } :: evs)

/-- `load_acc_events`: collect, then `sorted(events, key=lambda e: e.ts_ms)`. -/
def load_acc_events (ip_to_pos : List (String × String))
    (lines : List AccLine) : Except Unit (List UnifiedEvent) :=
  (load_acc_go ip_to_pos lines).map
    (sortBy fun a b => decide (a.ts_ms ≤ b.ts_ms))

/-! ## Retrospective Matcher (acc-person2-review.py) -/

/-- Ids at or above this constant denote group tracks (line 13). -/
def GROUP_ID_BASE : Int := 2147483648

/-- A tuple produced by `load_zone_events`:
`(recv_ms, frame_time, etype, track_id, zone_id)`. -/
structure ZEvent where
  recv_ms : Option Int
  frame_ms : Int
  etype : String
  track_id : Int
  zone_id : Int
deriving DecidableEq

/-- A tuple produced by `filter_zone_events`:
`(frame_ms, etype, track_id, zone_id)`. -/
structure ZEvent4 where
  t_ms : Int
  etype : String
  track_id : Int
  zone_id : Int
deriving DecidableEq

/-- `filter_zone_events(zone_events, cutoff_ms)` (lines 103-109). -/
def filter_zone_events (zone_events : List ZEvent) (cutoff_ms : Int) :
    List ZEvent4 :=
  (zone_events.filter fun e =>
    !(match e.recv_ms with
      | some r => decide (r > cutoff_ms)
      | none => false)).map fun e => ⟨e.frame_ms, e.etype, e.track_id, e.zone_id⟩

/-- An interval `(start, end, zone_id, closed)` of `build_intervals`. -/
structure Itv where
  start : Int
  stop : Int
  zone_id : Int
  closed : Bool
deriving DecidableEq

/-- The event loop body of `build_intervals` (lines 141-149): state is
(open-interval dict keyed by `(track_id, zone_id)`, intervals-by-track
dict). -/
def build_intervals_step
    (acc : List ((Int × Int) × Int) × List (Int × List Itv)) (e : ZEvent4) :
    List ((Int × Int) × Int) × List (Int × List Itv) :=
  let key := (e.track_id, e.zone_id)
  if e.etype == "ZONE_ENTRY" then
    (alistInsert key e.t_ms acc.1, acc.2)
  else if e.etype == "ZONE_EXIT" then
    match alistLookup key acc.1 with
    | none => acc
    | some st =>
      (alistErase key acc.1,
       alistAppend e.track_id ⟨st, e.t_ms, e.zone_id, true⟩ acc.2)
  else acc

/-- `build_intervals(zone_events)` (lines 136-158): sort by time, run the
loop, then close the still-open intervals at the last event time. -/
def build_intervals (zone_events : List ZEvent4) : List (Int × List Itv) :=
  let sortedEvs := sortBy (fun a b => decide (a.t_ms ≤ b.t_ms)) zone_events
  let p := sortedEvs.foldl build_intervals_step ([], [])
  match sortedEvs.getLast? with
  | none => p.2
  | some lastE =>
    p.1.foldl
      (fun m kv => alistAppend kv.1.1 ⟨kv.2, lastE.t_ms, kv.1.2, false⟩ m) p.2

/-- The fold of `merge_intervals` (lines 166-172), carrying `merged[-1]`. -/
def merge_intervals_go (merge_window_ms : Int) (cur : Itv) :
    List Itv → List Itv
  | [] => [cur]
  | nxt :: rest =>
    if nxt.zone_id == cur.zone_id &&
        decide (nxt.start - cur.stop ≤ merge_window_ms) then
      merge_intervals_go merge_window_ms
        ⟨cur.start, max cur.stop nxt.stop, cur.zone_id, cur.closed && nxt.closed⟩
        rest
    else cur :: merge_intervals_go merge_window_ms nxt rest

/-- `merge_intervals(intervals, merge_window_ms)` (lines 161-172). -/
def merge_intervals (intervals : List Itv) (merge_window_ms : Int) : List Itv :=
  match sortBy (fun a b => decide (a.start ≤ b.start)) intervals with
  | [] => []
  | a :: rest => merge_intervals_go merge_window_ms a rest

/-- `merged_by_track_for(cutoff_ms)` (lines 371-379): filter by receive
time, build intervals, drop group tracks, merge per track. -/
def merged_by_track_for (zone_events : List ZEvent) (merge_window_ms : Int)
    (cutoff_ms : Int) : List (Int × List Itv) × List ZEvent4 :=
  let filtered := filter_zone_events zone_events cutoff_ms
  let intervals_by_track := build_intervals filtered
  (intervals_by_track.filterMap fun p =>
    if decide (p.1 < GROUP_ID_BASE) then
      some (p.1, merge_intervals p.2 merge_window_ms)
    else none,
   filtered)

/-- `candidates_at(zone_id, acc_time, merged_by_track, lookback_ms,
exit_grace_ms)` (lines 181-195): a track is a candidate when one of its
merged intervals at the zone covers the query time (closed intervals get
the exit grace margin, open ones the lookback window). -/
def candidates_at (zone_id acc_time : Int)
    (merged_by_track : List (Int × List Itv))
    (lookback_ms exit_grace_ms : Int) : List Int :=
  merged_by_track.filterMap fun p =>
    if p.2.any fun i =>
        i.zone_id == zone_id &&
          (if i.closed then
            decide (i.start ≤ acc_time) &&
              decide (acc_time ≤ i.stop + exit_grace_ms)
          else
            decide (i.start ≤ acc_time) &&
              decide (acc_time ≤ i.start + lookback_ms))
    then some p.1 else none

/-! ## Group Candidate Evaluator (acc-exit-window-report.py 102-335)

Thresholds configured in seconds in the source (`entry_spread_s`,
`other_pos_window_s`, `other_pos_min_s`) appear here scaled to
milliseconds, matching the exact comparisons the Python performs on
second-valued differences of millisecond-precise timestamps. -/

/-- `session_at(sessions, zone, ts)` (report lines 102-108): first session
of the zone covering `ts`. -/
def session_at : List Session → String → Int → Option (Int × Option Int)
  | [], _, _ => none
  | s :: rest, zone, ts =>
    if s.zone == zone && decide (s.start ≤ ts) &&
        (match s.stop with
         | none => true
         | some e => decide (ts ≤ e)) then
      some (s.start, s.stop)
    else session_at rest zone ts

/-- `other_pos_duration_s` of the report (lines 127-141): total other-zone
time inside the *backward-only* window `[ts - window, ts]`, in ms. -/
def other_pos_duration_ms (sessions : List Session) (zone : String) (ts : Int)
    (window_ms : Int) : Int :=
  let window_start := ts - window_ms
  let window_end := ts
  sessions.foldl
    (fun total s =>
      if s.zone == zone then total
      else
        let session_end := match s.stop with
          | none => window_end
          | some e => e
        let overlap_start := max s.start window_start
        let overlap_end := min session_end window_end
        if overlap_end > overlap_start then total + (overlap_end - overlap_start)
        else total)
    0

/-- `other_pos_active(total_s, min_s)` (lines 144-146). -/
def other_pos_active (total_ms min_ms : Int) : Bool :=
  if min_ms ≤ 0 then decide (total_ms > 0) else decide (total_ms ≥ min_ms)

/-- One entry of the `present_raw` / `present_merged` lists built by
`evaluate_shared_key` (entry times kept as integers, not ISO strings). -/
structure MemberInfo where
  person_id : Int
  entry_ts : Int
  dwell_ms : Int
  other_pos_total_ms : Int
  other_pos_activity : Bool
deriving DecidableEq

structure EvalCfg where
  min_dwell_ms : Int
  entry_spread_ms : Int
  other_pos_window_ms : Int
  other_pos_min_ms : Int
deriving DecidableEq

/-- The member-info loop of `evaluate_shared_key` (run once on raw and
once on merged sessions). -/
def present_for (cfg : EvalCfg) (sessions_of : Int → List Session)
    (zone : String) (acc_ts : Int) (members : List Int) : List MemberInfo :=
  members.filterMap fun pid =>
    match session_at (sessions_of pid) zone acc_ts with
    | none => none
    | some (start, _) =>
      let total := other_pos_duration_ms (sessions_of pid) zone acc_ts
        cfg.other_pos_window_ms
      some { person_id := pid, entry_ts := start, dwell_ms := acc_ts - start,
             other_pos_total_ms := total,
             other_pos_activity := other_pos_active total cfg.other_pos_min_ms }

/-- `entry_spread(entries)` (report lines 297-301): `None` below two
members, else latest minus earliest entry time. -/
def entry_spread (entries : List MemberInfo) : Option Int :=
  match entries.map MemberInfo.entry_ts with
  | [] => none
  | [_] => none
  | t :: ts => some (ts.foldl max t - ts.foldl min t)

/-- The four stage verdicts of `evaluate_shared_key`. -/
structure SharedEval where
  test_b : Bool
  test_c : Bool
  test_d : Bool
  test_e : Bool
deriving DecidableEq

/-- `evaluate_shared_key(acc_ts, zone, members)` (report lines 246-335),
restricted to the stage verdicts. -/
def evaluate_shared_key (cfg : EvalCfg)
    (raw_sessions merged_sessions : Int → List Session)
    (acc_ts : Int) (zone : String) (members : List Int) : SharedEval :=
  let present_raw := present_for cfg raw_sessions zone acc_ts members
  let present_merged := present_for cfg merged_sessions zone acc_ts members
  let raw_q := present_raw.filter fun m => decide (m.dwell_ms ≥ cfg.min_dwell_ms)
  let merged_q :=
    present_merged.filter fun m => decide (m.dwell_ms ≥ cfg.min_dwell_ms)
  let spread_raw := entry_spread raw_q
  let spread_merged := entry_spread merged_q
  let test_b := decide (raw_q.length ≥ 2)
  let test_c := test_b &&
    (match spread_raw with
     | none => false
     | some s => decide (s ≤ cfg.entry_spread_ms))
  let test_d := test_c && !(raw_q.any MemberInfo.other_pos_activity)
  let test_e := decide (merged_q.length ≥ 2) &&
    (match spread_merged with
     | none => false
     | some s => decide (s ≤ cfg.entry_spread_ms)) &&
    !(merged_q.any MemberInfo.other_pos_activity)
  { test_b := test_b, test_c := test_c, test_d := test_d, test_e := test_e }

/-! ## Helper lemmas about the embedded primitives -/

theorem mem_insertLe {α : Type} {le : α → α → Bool} {a x : α} {l : List α} :
    x ∈ insertLe le a l ↔ x = a ∨ x ∈ l := by
  induction l with
  | nil => simp [insertLe]
  | cons b rest ih =>
    simp only [insertLe]
    by_cases h : le a b
    · simp [h]
    · simp only [h, if_neg, Bool.false_eq_true, ite_false, List.mem_cons, ih]
      tauto

theorem insertLe_perm {α : Type} (le : α → α → Bool) (a : α) (l : List α) :
    (insertLe le a l).Perm (a :: l) := by
  induction l with
  | nil => simp [insertLe]
  | cons b rest ih =>
    simp only [insertLe]
    by_cases h : le a b
    · simp [h]
    · simp only [h, Bool.false_eq_true, ite_false]
      exact (ih.cons b).trans (List.Perm.swap a b rest)

theorem sortBy_perm {α : Type} (le : α → α → Bool) (l : List α) :
    (sortBy le l).Perm l := by
  induction l with
  | nil => simp [sortBy]
  | cons a rest ih =>
    exact (insertLe_perm le a (sortBy le rest)).trans (ih.cons a)

theorem mem_sortBy {α : Type} {le : α → α → Bool} {x : α} {l : List α} :
    x ∈ sortBy le l ↔ x ∈ l :=
  (sortBy_perm le l).mem_iff

theorem pairwise_insertLe {α : Type} {le : α → α → Bool}
    (htot : ∀ a b, le a b = false → le b a = true)
    (htrans : ∀ a b c, le a b = true → le b c = true → le a c = true)
    {a : α} {l : List α} (h : l.Pairwise fun x y => le x y = true) :
    (insertLe le a l).Pairwise fun x y => le x y = true := by
  induction l with
  | nil => simp [insertLe]
  | cons b rest ih =>
    rcases List.pairwise_cons.mp h with ⟨hb, hrest⟩
    simp only [insertLe]
    by_cases hab : le a b = true
    · rw [if_pos hab]
      refine List.pairwise_cons.mpr ⟨?_, h⟩
      intro x hx
      rcases List.mem_cons.mp hx with rfl | hx
      · exact hab
      · exact htrans a b x hab (hb x hx)
    · rw [if_neg hab]
      refine List.pairwise_cons.mpr ⟨?_, ih hrest⟩
      intro x hx
      rcases mem_insertLe.mp hx with rfl | hx
      · exact htot _ _ (by simpa using hab)
      · exact hb x hx

theorem sortBy_pairwise {α : Type} {le : α → α → Bool}
    (htot : ∀ a b, le a b = false → le b a = true)
    (htrans : ∀ a b c, le a b = true → le b c = true → le a c = true)
    (l : List α) :
    (sortBy le l).Pairwise fun x y => le x y = true := by
  induction l with
  | nil => simp [sortBy]
  | cons a rest ih => exact pairwise_insertLe htot htrans ih

theorem insertLe_of_all {α : Type} {le : α → α → Bool} {a : α} {l : List α}
    (h : ∀ x ∈ l, le a x = true) : insertLe le a l = a :: l := by
  cases l with
  | nil => rfl
  | cons b rest => simp [insertLe, h b (List.mem_cons_self b rest)]

theorem sortBy_sorted_id {α : Type} {le : α → α → Bool} {l : List α}
    (h : l.Pairwise fun x y => le x y = true) : sortBy le l = l := by
  induction l with
  | nil => rfl
  | cons a rest ih =>
    rcases List.pairwise_cons.mp h with ⟨ha, hrest⟩
    simp only [sortBy, ih hrest]
    exact insertLe_of_all ha

theorem filter_insertLe {α : Type} {le : α → α → Bool}
    (htrans : ∀ a b c, le a b = true → le b c = true → le a c = true)
    {l : List α} (p : α → Bool) (a : α)
    (h : l.Pairwise fun x y => le x y = true) :
    (insertLe le a l).filter p =
      if p a then insertLe le a (l.filter p) else l.filter p := by
  induction l with
  | nil => cases hpa : p a <;> simp [insertLe, List.filter, hpa]
  | cons b rest ih =>
    rcases List.pairwise_cons.mp h with ⟨hb, hrest⟩
    simp only [insertLe]
    by_cases hab : le a b = true
    · have hax : ∀ x ∈ b :: rest, le a x = true := by
        intro x hx
        rcases List.mem_cons.mp hx with rfl | hx
        · exact hab
        · exact htrans a b x hab (hb x hx)
      have hall : ∀ x ∈ (b :: rest).filter p, le a x = true := fun x hx =>
        hax x (List.mem_of_mem_filter hx)
      rw [if_pos hab]
      cases hpa : p a
      · simp [List.filter_cons, hpa]
      · rw [insertLe_of_all hall]
        simp [List.filter_cons, hpa]
    · have hab' : le a b = false := by simpa using hab
      rw [if_neg hab]
      rw [List.filter_cons]
      cases hpb : p b
      · simp only [Bool.false_eq_true, ite_false]
        rw [List.filter_cons, hpb]
        simpa using ih hrest
      · simp only [ite_true]
        rw [List.filter_cons, hpb, ih hrest]
        cases hpa : p a
        · simp
        · simp [insertLe, hab']

theorem alistLookup_alistInsert_self {κ ν : Type} [BEq κ] [LawfulBEq κ]
    (k : κ) (v : ν) (m : List (κ × ν)) :
    alistLookup k (alistInsert k v m) = some v := by
  induction m with
  | nil => simp [alistInsert, alistLookup]
  | cons p rest ih =>
    obtain ⟨k0, v0⟩ := p
    simp only [alistInsert]
    by_cases h : k0 == k
    · simp [alistLookup, h]
    · simp only [h, Bool.false_eq_true, ite_false, alistLookup]
      simp [h, ih]

theorem alistInsert_alistInsert {κ ν : Type} [BEq κ] [LawfulBEq κ]
    (k : κ) (v v' : ν) (m : List (κ × ν)) :
    alistInsert k v' (alistInsert k v m) = alistInsert k v' m := by
  induction m with
  | nil => simp [alistInsert]
  | cons p rest ih =>
    obtain ⟨k0, v0⟩ := p
    simp only [alistInsert]
    by_cases h : k0 == k
    · simp [alistInsert, h]
    · simp [alistInsert, h, ih]

theorem alistAppend_keys {κ ν : Type} [BEq κ] [LawfulBEq κ]
    (k : κ) (v : ν) (m : List (κ × List ν)) :
    (alistAppend k v m).map Prod.fst =
      if k ∈ m.map Prod.fst then m.map Prod.fst else m.map Prod.fst ++ [k] := by
  induction m with
  | nil => simp [alistAppend]
  | cons p rest ih =>
    obtain ⟨k0, vs⟩ := p
    simp only [alistAppend]
    by_cases h : k0 == k
    · have : k0 = k := eq_of_beq h
      subst this
      simp [h]
    · have hne : k ≠ k0 := fun he => h (by simp [he])
      simp only [h, Bool.false_eq_true, ite_false, List.map_cons, ih]
      by_cases hk : k ∈ rest.map Prod.fst
      · simp [hk, hne]
      · simp [hk, hne]

theorem mem_alistAppend {κ ν : Type} [BEq κ] [LawfulBEq κ]
    (k : κ) (v : ν) (m : List (κ × List ν)) (hnd : (m.map Prod.fst).Nodup)
    (p : κ × List ν) (hp : p ∈ alistAppend k v m) :
    (p.1 ≠ k ∧ p ∈ m) ∨
      (p.1 = k ∧ ((∃ vs, (k, vs) ∈ m ∧ p.2 = vs ++ [v]) ∨
        (k ∉ m.map Prod.fst ∧ p.2 = [v]))) := by
  induction m with
  | nil =>
    simp only [alistAppend, List.mem_singleton] at hp
    subst hp
    exact Or.inr ⟨rfl, Or.inr ⟨by simp, rfl⟩⟩
  | cons q rest ih =>
    obtain ⟨k0, vs⟩ := q
    simp only [List.map_cons, List.nodup_cons] at hnd
    simp only [alistAppend] at hp
    by_cases h : k0 == k
    · have hk0 : k0 = k := eq_of_beq h
      subst hk0
      rw [if_pos (by simp)] at hp
      rcases List.mem_cons.mp hp with rfl | hp
      · exact Or.inr ⟨rfl, Or.inl ⟨vs, List.mem_cons_self _ _, rfl⟩⟩
      · have hpk : p.1 ≠ k0 := by
          intro he
          exact hnd.1 (he ▸ List.mem_map_of_mem Prod.fst hp)
        exact Or.inl ⟨hpk, List.mem_cons_of_mem _ hp⟩
    · rw [if_neg (by simpa using h)] at hp
      rcases List.mem_cons.mp hp with rfl | hp
      · exact Or.inl ⟨fun he => h (beq_iff_eq.mpr he), List.mem_cons_self _ _⟩
      · rcases ih hnd.2 hp with ⟨hne, hmem⟩ | ⟨he, hrest⟩
        · exact Or.inl ⟨hne, List.mem_cons_of_mem _ hmem⟩
        · refine Or.inr ⟨he, ?_⟩
          rcases hrest with ⟨vs', hv, hp2⟩ | ⟨hnk, hp2⟩
          · exact Or.inl ⟨vs', List.mem_cons_of_mem _ hv, hp2⟩
          · refine Or.inr ⟨?_, hp2⟩
            intro hk
            rcases List.mem_cons.mp hk with hk | hk
            · exact h (by simp [hk])
            · exact hnk hk

/-- The grouping invariant of `by_zone`: unique zone keys, each entry
holding exactly the zone's sessions in input order, every input zone
present. -/
theorem byZone_aux (raw : List Session) :
    ∀ (pre : List Session) (m : List (String × List Session)),
    (m.map Prod.fst).Nodup →
    (∀ p ∈ m, p.2 = pre.filter fun s => s.zone == p.1) →
    (∀ s ∈ pre, s.zone ∈ m.map Prod.fst) →
    ((raw.foldl (fun m s => alistAppend s.zone s m) m).map Prod.fst).Nodup ∧
    (∀ p ∈ raw.foldl (fun m s => alistAppend s.zone s m) m,
      p.2 = (pre ++ raw).filter fun s => s.zone == p.1) ∧
    (∀ s ∈ pre ++ raw,
      s.zone ∈ (raw.foldl (fun m s => alistAppend s.zone s m) m).map Prod.fst) := by
  induction raw with
  | nil =>
    intro pre m hnd hval hcov
    simp only [List.foldl_nil, List.append_nil]
    exact ⟨hnd, hval, hcov⟩
  | cons s raw' ih =>
    intro pre m hnd hval hcov
    have hkeys := alistAppend_keys s.zone s m
    have hnd' : ((alistAppend s.zone s m).map Prod.fst).Nodup := by
      rw [hkeys]
      by_cases hk : s.zone ∈ m.map Prod.fst
      · simpa [hk] using hnd
      · rw [if_neg hk]
        exact hnd.append (List.nodup_singleton _)
          (by simpa [List.disjoint_singleton] using hk)
    have hval' : ∀ p ∈ alistAppend s.zone s m,
        p.2 = (pre ++ [s]).filter fun t => t.zone == p.1 := by
      intro p hp
      rcases mem_alistAppend s.zone s m hnd p hp with ⟨hne, hmem⟩ | ⟨he, hrest⟩
      · rw [List.filter_append, ← hval p hmem]
        have hbf : (s.zone == p.1) = false := beq_eq_false_iff_ne.mpr (Ne.symm hne)
        have : [s].filter (fun t => t.zone == p.1) = [] := by
          simp [List.filter, hbf]
        simp [this]
      · rw [List.filter_append]
        have hbt : (s.zone == p.1) = true := beq_iff_eq.mpr he.symm
        have hs : [s].filter (fun t => t.zone == p.1) = [s] := by
          simp [List.filter, hbt]
        rcases hrest with ⟨vs, hv, hp2⟩ | ⟨hnk, hp2⟩
        · have := hval _ hv
          simp only at this
          rw [hp2, hs, this, he]
        · have hpre : pre.filter (fun t => t.zone == p.1) = [] := by
            rw [List.filter_eq_nil_iff]
            intro t ht hbeq
            exact hnk (he ▸ eq_of_beq hbeq ▸ hcov t ht)
          rw [hp2, hs, hpre]
          simp
    have hcov' : ∀ t ∈ pre ++ [s],
        t.zone ∈ (alistAppend s.zone s m).map Prod.fst := by
      intro t ht
      rw [hkeys]
      rcases List.mem_append.mp ht with ht | ht
      · by_cases hk : s.zone ∈ m.map Prod.fst
        · simpa [hk] using hcov t ht
        · rw [if_neg hk]
          exact List.mem_append_left _ (hcov t ht)
      · rcases List.mem_singleton.mp ht with rfl
        by_cases hk : t.zone ∈ m.map Prod.fst
        · simp [hk]
        · rw [if_neg hk]
          exact List.mem_append_right _ (List.mem_singleton_self _)
    have := ih (pre ++ [s]) (alistAppend s.zone s m) hnd' hval' hcov'
    simpa [List.append_assoc] using this

theorem byZone_keys_nodup (raw : List Session) :
    ((byZone raw).map Prod.fst).Nodup :=
  (byZone_aux raw [] [] (by simp) (by simp) (by simp)).1

theorem byZone_val (raw : List Session) :
    ∀ p ∈ byZone raw, p.2 = raw.filter fun s => s.zone == p.1 := by
  have := (byZone_aux raw [] [] (by simp) (by simp) (by simp)).2.1
  simpa using this

theorem byZone_cov (raw : List Session) :
    ∀ s ∈ raw, s.zone ∈ (byZone raw).map Prod.fst := by
  have := (byZone_aux raw [] [] (by simp) (by simp) (by simp)).2.2
  simpa using this

/-- `other_pos_between` over the grouping of `raw` holds exactly when
some *other-zone* session of `raw` overlaps the range. -/
theorem other_pos_between_iff (raw : List Session) (zone : String)
    (a b : Int) :
    other_pos_between (byZone raw) zone a b = true ↔
      ∃ s ∈ raw, s.zone ≠ zone ∧
        sessions_overlap a (some b) s.start s.stop = true := by
  constructor
  · intro h
    rcases List.any_eq_true.mp h with ⟨p, hp, hcond⟩
    rw [Bool.and_eq_true] at hcond
    obtain ⟨hne, hany⟩ := hcond
    rcases List.any_eq_true.mp hany with ⟨o, ho, hov⟩
    have hval := byZone_val raw p hp
    rw [hval] at ho
    rcases List.mem_filter.mp ho with ⟨hor, hoz⟩
    refine ⟨o, hor, ?_, hov⟩
    have : o.zone = p.1 := eq_of_beq hoz
    rw [this]
    intro he
    simp [he] at hne
  · rintro ⟨s, hs, hne, hov⟩
    have hk := byZone_cov raw s hs
    rcases List.mem_map.mp hk with ⟨p, hp, hfst⟩
    refine List.any_eq_true.mpr ⟨p, hp, ?_⟩
    rw [Bool.and_eq_true]
    refine ⟨?_, ?_⟩
    · rw [hfst]
      simp only [Bool.not_eq_eq_eq_not, Bool.not_true, beq_eq_false_iff_ne, ne_eq]
      exact hne
    · refine List.any_eq_true.mpr ⟨s, ?_, hov⟩
      rw [byZone_val raw p hp]
      exact List.mem_filter.mpr ⟨hs, by simp [hfst]⟩

/-! ## Claim C2: error handling of the line readers -/

/-- C2, counterexample: a single line that is malformed top-level JSON
makes both the zone-sensor reader and the payment reader terminate with an
unhandled error, contradicting the claim that such lines are skipped and
never fatal. -/
theorem c2_malformed_line_fatal_cex :
    stream_xovis_zone_events [SensorLine.malformed] = Except.error () ∧
    load_acc_events [] [AccLine.malformed] = Except.error () :=
  ⟨rfl, rfl⟩

/-- C2, amended: in both readers a blank line, a record without payload,
and a record whose *nested* payload JSON is unparseable are skipped (the
run succeeds); but a line that is malformed *top-level* JSON terminates
the run with an unhandled error — the run succeeds exactly when no line is
malformed top-level JSON. -/
theorem c2_reader_ok_iff_no_malformed_line :
    ∀ (lines : List SensorLine) (ip_to_pos : List (String × String))
      (accLines : List AccLine),
    ((∃ evs, stream_xovis_zone_events lines = Except.ok evs) ↔
      SensorLine.malformed ∉ lines) ∧
    ((∃ evs, load_acc_events ip_to_pos accLines = Except.ok evs) ↔
      AccLine.malformed ∉ accLines) := by
  intro lines ip_to_pos accLines
  constructor
  · induction lines with
    | nil => simp [stream_xovis_zone_events]
    | cons l rest ih =>
      cases l with
      | blank => simpa [stream_xovis_zone_events] using ih
      | malformed => simp [stream_xovis_zone_events]
      | record p =>
        cases p with
        | none => simpa [stream_xovis_zone_events] using ih
        | some q =>
          cases q with
          | bad => simpa [stream_xovis_zone_events] using ih
          | parsed frames =>
            simp only [stream_xovis_zone_events, List.mem_cons]
            constructor
            · rintro ⟨evs, hevs⟩
              rcases hcall : stream_xovis_zone_events rest with he | hok
              · rw [hcall] at hevs; cases hevs
              · intro hc
                rcases hc with hc | hc
                · cases hc
                · exact (ih.mp ⟨_, hcall⟩) hc
            · intro hnm
              rcases ih.mpr (fun hc => hnm (Or.inr hc)) with ⟨evs, hevs⟩
              exact ⟨_, by rw [hevs]⟩
  · induction accLines with
    | nil => simp [load_acc_events, load_acc_go, Except.map]
    | cons l rest ih =>
      have hmap : ∀ ls, (∃ evs, load_acc_events ip_to_pos ls = Except.ok evs) ↔
          (∃ evs, load_acc_go ip_to_pos ls = Except.ok evs) := by
        intro ls
        unfold load_acc_events
        rcases h : load_acc_go ip_to_pos ls with he | hok <;>
          simp [h, Except.map]
      rw [hmap] at *
      cases l with
      | blank => simpa [load_acc_go] using ih
      | malformed => simp [load_acc_go]
      | record ts f =>
        cases ts with
        | none => simpa [load_acc_go] using ih
        | some ms =>
          simp only [load_acc_go, List.mem_cons]
          constructor
          · rintro ⟨evs, hevs⟩
            rcases hcall : load_acc_go ip_to_pos rest with he | hok
            · rw [hcall] at hevs; cases hevs
            · intro hc
              rcases hc with hc | hc
              · cases hc
              · exact (ih.mp ⟨_, hcall⟩) hc
          · intro hnm
            rcases ih.mpr (fun hc => hnm (Or.inr hc)) with ⟨evs, hevs⟩
            exact ⟨_, by rw [hevs]⟩

/-! ## Claim C10: the Retrospective Matcher never returns group tracks -/

/-- C10: every candidate id returned by `candidates_at` over
`merged_by_track_for` (any cutoff — initial or corrected) is a
person-track id strictly below `GROUP_ID_BASE` (group tracks are filtered
out before interval merging); the Occupancy Replayer, by contrast, has no
such filter: a concrete replay yields a payment whose candidate list
contains the group-track id `GROUP_ID_BASE` itself, and the matcher with a
person track returns it (the filter drops only group tracks). -/
theorem c10_matcher_candidates_person_tracks_only :
    (∀ (zone_events : List ZEvent)
       (merge_window_ms cutoff_ms zone acc_time lookback_ms exit_grace_ms tid : Int),
      tid ∈ candidates_at zone acc_time
          (merged_by_track_for zone_events merge_window_ms cutoff_ms).1
          lookback_ms exit_grace_ms →
      tid < GROUP_ID_BASE) ∧
    ((replay_and_evaluate
        { pos_name_to_zone_id := [("POS_1", 5)], pos_zone_ids := {5},
          exit_grace_ms := 2500 }
        [{ ts_ms := 0, source := "xovis", event_type := "ZONE_ENTRY",
           track_id := some 2147483648, zone_id := some 5 },
         { ts_ms := 1, source := "acc", event_type := "ACC",
           track_id := none, zone_id := none, receipt_id := some "r1",
           kiosk_ip := some "k", pos_zone := some "POS_1" }]).results.map
      AccResult.candidates = [[2147483648]]) ∧
    (candidates_at 5 25
      (merged_by_track_for
        [⟨some 10, 10, "ZONE_ENTRY", 3000000000, 5⟩,
         ⟨some 20, 20, "ZONE_ENTRY", 42, 5⟩,
         ⟨some 30, 30, "ZONE_EXIT", 42, 5⟩] 10000 100).1 60000 1500 = [42]) := by
  refine ⟨?_, by decide, by decide⟩
  intro zone_events merge_window_ms cutoff_ms zone acc_time lookback_ms exit_grace_ms tid h
  simp only [candidates_at, List.mem_filterMap] at h
  rcases h with ⟨p, hp, heq⟩
  have hpt : p.1 = tid := by
    by_cases hc : (p.2.any fun i =>
        i.zone_id == zone &&
          (if i.closed then
            decide (i.start ≤ acc_time) &&
              decide (acc_time ≤ i.stop + exit_grace_ms)
          else
            decide (i.start ≤ acc_time) &&
              decide (acc_time ≤ i.start + lookback_ms))) = true
    · rw [if_pos hc] at heq; exact Option.some_injective _ heq
    · rw [if_neg hc] at heq; cases heq
  simp only [merged_by_track_for, List.mem_filterMap] at hp
  rcases hp with ⟨q, hq, heq2⟩
  by_cases hg : q.1 < GROUP_ID_BASE
  · rw [if_pos (by simpa using hg)] at heq2
    have hqp : (q.1, merge_intervals q.2 merge_window_ms) = p := by
      injection heq2
    have : q.1 = p.1 := by rw [← hqp]
    omega
  · rw [if_neg (by simpa using hg)] at heq2
    cases heq2

/-! ## Claim C1: stage monotonicity of the group evaluator -/

/-- Concrete per-person raw sessions used to exhibit a flicker-tolerant
(stage E) pass without a stage D pass: person 1's visit is split by a
5-second dropout, so its raw dwell at the payment time is below the
threshold while the merged dwell is far above it. -/
def c1_raw_sessions : Int → List Session := fun pid =>
  if pid = 1 then [⟨"POS_1", 0, some 50000⟩, ⟨"POS_1", 55000, some 200000⟩]
  else if pid = 2 then [⟨"POS_1", 1000, some 201000⟩]
  else []

/-- C1, counterexample: with the sessions of `c1_raw_sessions` (and their
actual flicker-merge), the evaluated shared payment at t=60000 has
`stage_e = true` while `stage_d = false` (indeed `stage_b = false`):
stage E is computed from the merged sessions independently and is not
gated on stage D, so stage passage is not monotonic. -/
theorem c1_stage_e_true_stage_d_false_cex :
    ((evaluate_shared_key
        { min_dwell_ms := 7000, entry_spread_ms := 10000,
          other_pos_window_ms := 30000, other_pos_min_ms := 0 }
        c1_raw_sessions
        (fun pid => merge_sessions (c1_raw_sessions pid) (some 10000))
        60000 "POS_1" [1, 2]).test_e = true) ∧
    ((evaluate_shared_key
        { min_dwell_ms := 7000, entry_spread_ms := 10000,
          other_pos_window_ms := 30000, other_pos_min_ms := 0 }
        c1_raw_sessions
        (fun pid => merge_sessions (c1_raw_sessions pid) (some 10000))
        60000 "POS_1" [1, 2]).test_d = false) ∧
    ((evaluate_shared_key
        { min_dwell_ms := 7000, entry_spread_ms := 10000,
          other_pos_window_ms := 30000, other_pos_min_ms := 0 }
        c1_raw_sessions
        (fun pid => merge_sessions (c1_raw_sessions pid) (some 10000))
        60000 "POS_1" [1, 2]).test_b = false) := by
  decide

/-- C1, amended: for every evaluated shared payment event the first three
stages are monotonic — `stage_d = true` implies `stage_c = true` implies
`stage_b = true` — while `stage_e` (flicker-tolerant focus) is computed
from the merged sessions independently of `stage_d` and may hold without
it; a fully qualifying concrete group shows all four stages can pass
together. -/
theorem c1_stage_monotone_d_c_b :
    (∀ (cfg : EvalCfg) (raw merged : Int → List Session) (acc_ts : Int)
       (zone : String) (members : List Int),
      ((evaluate_shared_key cfg raw merged acc_ts zone members).test_d = true →
        (evaluate_shared_key cfg raw merged acc_ts zone members).test_c = true) ∧
      ((evaluate_shared_key cfg raw merged acc_ts zone members).test_c = true →
        (evaluate_shared_key cfg raw merged acc_ts zone members).test_b = true)) ∧
    (evaluate_shared_key
        { min_dwell_ms := 7000, entry_spread_ms := 10000,
          other_pos_window_ms := 30000, other_pos_min_ms := 0 }
        (fun pid => if pid = 1 then [⟨"POS_1", 0, some 20000⟩]
          else if pid = 2 then [⟨"POS_1", 2000, some 18000⟩] else [])
        (fun pid => if pid = 1 then [⟨"POS_1", 0, some 20000⟩]
          else if pid = 2 then [⟨"POS_1", 2000, some 18000⟩] else [])
        15000 "POS_1" [1, 2]) =
      { test_b := true, test_c := true, test_d := true, test_e := true } := by
  refine ⟨?_, by decide⟩
  intro cfg raw merged acc_ts zone members
  constructor
  · intro h
    simp only [evaluate_shared_key, Bool.and_eq_true] at h ⊢
    exact h.1
  · intro h
    simp only [evaluate_shared_key, Bool.and_eq_true] at h ⊢
    exact h.1

/-! ## Claim C3: the split/merge rule of the Session Merger -/

/-- C3, counterexample: on the start-sorted same-zone sessions
`[A: [0,100], A: [5,10]]` (threshold 1000) the fold merges them — no split
condition holds — but the merged session's end is the *next* session's
end `10`, not the maximum `100` of the two ends: the claim's
"end = max of the two ends" is false as stated. -/
theorem c3_merge_end_not_max_cex :
    merge_sessions [⟨"A", 0, some 100⟩, ⟨"A", 5, some 10⟩] (some 1000) =
      [⟨"A", 0, some 10⟩] ∧
    (max (100 : Int) 10 ≠ 10) := by
  decide

/-- C3, amended: in the fold, the pair is split iff the accumulated end is
open, or `nxt_start - cur_end` exceeds the configured gap threshold, or
some other zone has a session overlapping `[cur_end, nxt_start]`; when the
pair is merged, the merged session's end is the *next* session's end —
which equals the maximum of the two ends whenever the accumulated end does
not exceed the next end (as for non-overlapping builder sessions) — the
accumulated session is necessarily closed, so the merged closed flag is
the AND of both closed flags; and the `Z1=[0,10], Z1=[15,20], Z2=[11,12]`
example is not combined even though its gap 5 is within the threshold. -/
theorem c3_split_iff_and_merge_shape :
    (∀ (gap_ms : Option Int) (bz : List (String × List Session))
       (zone : String) (nxt_start : Int),
      should_split gap_ms bz zone none nxt_start = true) ∧
    (∀ (gap_ms : Option Int) (raw : List Session) (zone : String)
       (ce nxt_start : Int),
      should_split gap_ms (byZone raw) zone (some ce) nxt_start = true ↔
        ((∃ g, gap_ms = some g ∧ nxt_start - ce > g) ∨
         (∃ s ∈ raw, s.zone ≠ zone ∧
            sessions_overlap ce (some nxt_start) s.start s.stop = true))) ∧
    (∀ (split : Option Int → Int → Bool) (cur nxt : Session)
       (rest : List Session),
      split cur.stop nxt.start = false →
        merge_zone_go split cur (nxt :: rest) =
          merge_zone_go split { cur with stop := nxt.stop } rest) ∧
    (∀ (gap_ms : Option Int) (bz : List (String × List Session))
       (zone : String) (cur_end : Option Int) (nxt_start : Int),
      should_split gap_ms bz zone cur_end nxt_start = false →
        ∃ e, cur_end = some e) ∧
    (∀ (gap_ms : Option Int) (bz : List (String × List Session))
       (zone : String) (cur nxt : Session),
      should_split gap_ms bz zone cur.stop nxt.start = false →
        ({ cur with stop := nxt.stop } : Session).stop.isSome =
          (cur.stop.isSome && nxt.stop.isSome)) ∧
    (∀ (cur nxt : Session) (e ne : Int),
      cur.stop = some e → nxt.stop = some ne → e ≤ ne →
        ({ cur with stop := nxt.stop } : Session).stop = some (max e ne)) ∧
    (merge_sessions
        [⟨"Z1", 0, some 10⟩, ⟨"Z1", 15, some 20⟩, ⟨"Z2", 11, some 12⟩]
        (some 10000) =
      [⟨"Z1", 0, some 10⟩, ⟨"Z2", 11, some 12⟩, ⟨"Z1", 15, some 20⟩]) := by
  refine ⟨?_, ?_, ?_, ?_, ?_, ?_, by decide⟩
  · intro gap_ms bz zone nxt_start
    simp [should_split]
  · intro gap_ms raw zone ce nxt_start
    simp only [should_split, Bool.or_eq_true]
    constructor
    · rintro (hg | hov)
      · left
        cases gap_ms with
        | none => simp at hg
        | some g => exact ⟨g, rfl, by simpa using hg⟩
      · exact Or.inr ((other_pos_between_iff raw zone ce nxt_start).mp hov)
    · rintro (⟨g, rfl, hgt⟩ | hov)
      · left; simpa using hgt
      · exact Or.inr ((other_pos_between_iff raw zone ce nxt_start).mpr hov)
  · intro split cur nxt rest h
    simp [merge_zone_go, h]
  · intro gap_ms bz zone cur_end nxt_start h
    cases cur_end with
    | none => simp [should_split] at h
    | some e => exact ⟨e, rfl⟩
  · intro gap_ms bz zone cur nxt h
    rcases hcs : cur.stop with _ | e
    · rw [hcs] at h; simp [should_split] at h
    · simp
  · intro cur nxt e ne he hne hle
    simp [hne, max_eq_right hle]

/-! ## Claim C5: the stable merge orders sensor events before payments -/

theorem keyLE_total (a b : Int × Int) :
    keyLE a b = false → keyLE b a = true := by
  intro h
  simp only [keyLE, Bool.or_eq_true, Bool.and_eq_true, decide_eq_true_eq,
    Bool.or_eq_false_iff, Bool.and_eq_false_iff, decide_eq_false_iff_not] at *
  omega

theorem merge_event_streams_nil_left (ys : List UnifiedEvent) :
    merge_event_streams [] ys = ys := by
  rw [merge_event_streams]

theorem merge_event_streams_nil_right (x : UnifiedEvent)
    (xs : List UnifiedEvent) :
    merge_event_streams (x :: xs) [] = x :: xs := by
  rw [merge_event_streams]
  simp

theorem merge_event_streams_cons (x y : UnifiedEvent)
    (xs ys : List UnifiedEvent) :
    merge_event_streams (x :: xs) (y :: ys) =
      if keyLE (make_key x) (make_key y) then
        x :: merge_event_streams xs (y :: ys)
      else
        y :: merge_event_streams (x :: xs) ys := by
  rw [merge_event_streams]

theorem merge_event_streams_head (xs ys : List UnifiedEvent)
    (z : UnifiedEvent) (zs : List UnifiedEvent)
    (h : merge_event_streams xs ys = z :: zs) :
    (∃ t, xs = z :: t) ∨ (∃ t, ys = z :: t) := by
  match xs, ys with
  | [], ys =>
    rw [merge_event_streams_nil_left] at h
    exact Or.inr ⟨zs, h⟩
  | x :: xs, [] =>
    rw [merge_event_streams_nil_right] at h
    exact Or.inl ⟨zs, h⟩
  | x :: xs, y :: ys =>
    rw [merge_event_streams_cons] at h
    by_cases hle : keyLE (make_key x) (make_key y) = true
    · rw [if_pos hle] at h
      exact Or.inl ⟨xs, by rw [(List.cons.injEq ..).mp h |>.1]⟩
    · rw [if_neg hle] at h
      exact Or.inr ⟨ys, by rw [(List.cons.injEq ..).mp h |>.1]⟩

theorem merge_event_streams_chain (xs ys : List UnifiedEvent)
    (hx : List.Chain' (fun a b => keyLE (make_key a) (make_key b) = true) xs)
    (hy : List.Chain' (fun a b => keyLE (make_key a) (make_key b) = true) ys) :
    List.Chain' (fun a b => keyLE (make_key a) (make_key b) = true)
      (merge_event_streams xs ys) := by
  match xs, ys with
  | [], ys => rw [merge_event_streams_nil_left]; exact hy
  | x :: xs, [] => rw [merge_event_streams_nil_right]; exact hx
  | x :: xs, y :: ys =>
    rw [merge_event_streams_cons]
    rcases List.chain'_cons'.mp hx with ⟨hxh, hxt⟩
    rcases List.chain'_cons'.mp hy with ⟨hyh, hyt⟩
    by_cases hle : keyLE (make_key x) (make_key y) = true
    · rw [if_pos hle]
      refine List.chain'_cons'.mpr ⟨?_, merge_event_streams_chain xs (y :: ys) hxt hy⟩
      intro z hz
      rcases hh : merge_event_streams xs (y :: ys) with _ | ⟨w, ws⟩
      · rw [hh] at hz; cases hz
      · rw [hh] at hz
        have hwz : w = z := by simpa using hz
        subst hwz
        rcases merge_event_streams_head xs (y :: ys) w ws hh with ⟨t, rfl⟩ | ⟨t, ht⟩
        · exact hxh w rfl
        · rw [← ((List.cons.injEq ..).mp ht |>.1)]
          exact hle
    · rw [if_neg hle]
      refine List.chain'_cons'.mpr ⟨?_, merge_event_streams_chain (x :: xs) ys hx hyt⟩
      intro z hz
      rcases hh : merge_event_streams (x :: xs) ys with _ | ⟨w, ws⟩
      · rw [hh] at hz; cases hz
      · rw [hh] at hz
        have hwz : w = z := by simpa using hz
        subst hwz
        rcases merge_event_streams_head (x :: xs) ys w ws hh with ⟨t, ht⟩ | ⟨t, rfl⟩
        · rw [← ((List.cons.injEq ..).mp ht |>.1)]
          exact keyLE_total _ _ (by simpa using hle)
        · exact hyh w rfl

/-- C5: merging the two keyed streams yields a sequence sorted by
`(ts_ms, 0 for sensor / 1 for payment)` — so at equal timestamps a sensor
event never follows a payment — and the sensor key is strictly below the
payment key at equal timestamps; concretely, merging an ENTRY of person 7
to zone 5 at ts=1000 with a payment at the same zone and ts=1000 puts the
sensor event first and the replayed payment's candidates contain 7. -/
theorem c5_sensor_sorts_before_payment_at_ties :
    (∀ xs ys : List UnifiedEvent,
      List.Chain' (fun a b => keyLE (make_key a) (make_key b) = true) xs →
      List.Chain' (fun a b => keyLE (make_key a) (make_key b) = true) ys →
      List.Chain' (fun a b => keyLE (make_key a) (make_key b) = true)
        (merge_event_streams xs ys)) ∧
    (∀ e1 e2 : UnifiedEvent, e1.source = "xovis" → e2.source ≠ "xovis" →
      e1.ts_ms = e2.ts_ms →
      keyLE (make_key e1) (make_key e2) = true ∧
      keyLE (make_key e2) (make_key e1) = false) ∧
    (merge_event_streams
        [{ ts_ms := 1000, source := "xovis", event_type := "ZONE_ENTRY",
           track_id := some 7, zone_id := some 5 }]
        [{ ts_ms := 1000, source := "acc", event_type := "ACC",
           track_id := none, zone_id := none, receipt_id := some "r1",
           kiosk_ip := some "k", pos_zone := some "POS_1" }] =
      [{ ts_ms := 1000, source := "xovis", event_type := "ZONE_ENTRY",
         track_id := some 7, zone_id := some 5 },
       { ts_ms := 1000, source := "acc", event_type := "ACC",
         track_id := none, zone_id := none, receipt_id := some "r1",
         kiosk_ip := some "k", pos_zone := some "POS_1" }]) ∧
    ((replay_and_evaluate
        { pos_name_to_zone_id := [("POS_1", 5)], pos_zone_ids := [5],
          exit_grace_ms := 2500 }
        (merge_event_streams
          [{ ts_ms := 1000, source := "xovis", event_type := "ZONE_ENTRY",
             track_id := some 7, zone_id := some 5 }]
          [{ ts_ms := 1000, source := "acc", event_type := "ACC",
             track_id := none, zone_id := none, receipt_id := some "r1",
             kiosk_ip := some "k", pos_zone := some "POS_1" }])).results.map
      AccResult.candidates = [[7]]) := by
  refine ⟨merge_event_streams_chain, ?_,
    by rw [merge_event_streams_cons, if_pos (by decide),
      merge_event_streams_nil_left],
    by rw [merge_event_streams_cons, if_pos (by decide),
      merge_event_streams_nil_left]; decide⟩
  intro e1 e2 h1 h2 hts
  have hb1 : (e1.source == "xovis") = true := beq_iff_eq.mpr h1
  have hb2 : (e2.source == "xovis") = false := beq_eq_false_iff_ne.mpr h2
  simp [make_key, keyLE, hb1, hb2, hts]

/-! ## Claim C7: behavior of the Session Builder -/

theorem raw_step_entry (ss : List Session) (m : List (String × Int))
    (z : String) (t : Int) :
    raw_step (ss, m) ⟨"zone_entry", t, some z⟩ =
      if startsWithPOS z then (ss, alistInsert z t m) else (ss, m) := by
  simp only [raw_step]
  by_cases h : startsWithPOS z = true
  · simp [h]
  · simp [h]

theorem raw_step_exit (ss : List Session) (m : List (String × Int))
    (z : String) (t : Int) :
    raw_step (ss, m) ⟨"zone_exit", t, some z⟩ =
      if startsWithPOS z then
        (match alistLookup z m with
         | some st => (ss ++ [⟨z, st, some t⟩], alistErase z m)
         | none => (ss, m))
      else (ss, m) := by
  have hne : (("zone_exit" : String) == "zone_entry") = false := by decide
  simp only [raw_step, hne, beq_self_eq_true, if_true, Bool.false_eq_true,
    if_false]

/-- C7: the Session Builder (i) lets a later ENTRY for a zone silently
supersede an earlier one without intervening EXIT, the open start being
the one set last; (ii) on EXIT with an open entry it pops it and emits the
closed session `(zone, start, ts)`; (iii) drops an EXIT with no open
entry; and (iv) at end of input emits every still-open zone as an
unclosed session with `stop = none` (`closed = false`), all sessions
sorted by start. -/
theorem c7_builder_entry_exit_behavior :
    (∀ (ss : List Session) (m : List (String × Int)) (z : String) (t t' : Int),
      List.foldl raw_step (ss, m)
          [⟨"zone_entry", t, some z⟩, ⟨"zone_entry", t', some z⟩] =
        List.foldl raw_step (ss, m) [⟨"zone_entry", t', some z⟩]) ∧
    (∀ (z : String) (t : Int) (m : List (String × Int)),
      alistLookup z (alistInsert z t m) = some t) ∧
    (∀ (acc : List Session × List (String × Int)) (z : String) (t st : Int),
      startsWithPOS z = true → alistLookup z acc.2 = some st →
        raw_step acc ⟨"zone_exit", t, some z⟩ =
          (acc.1 ++ [⟨z, st, some t⟩], alistErase z acc.2)) ∧
    (∀ (acc : List Session × List (String × Int)) (z : String) (t : Int),
      startsWithPOS z = true → alistLookup z acc.2 = none →
        raw_step acc ⟨"zone_exit", t, some z⟩ = acc) ∧
    (∀ events : List JEvent,
      build_raw_sessions events =
        sortBy sessLE ((events.foldl raw_step ([], [])).1 ++
          (events.foldl raw_step ([], [])).2.map fun kv =>
            { zone := kv.1, start := kv.2, stop := none })) ∧
    (∀ (events : List JEvent) (kv : String × Int),
      kv ∈ (events.foldl raw_step ([], [])).2 →
        ({ zone := kv.1, start := kv.2, stop := none } : Session) ∈
          build_raw_sessions events) := by
  refine ⟨?_, ?_, ?_, ?_, fun _ => rfl, ?_⟩
  · intro ss m z t t'
    simp only [List.foldl_cons, List.foldl_nil]
    by_cases h : startsWithPOS z = true
    · rw [raw_step_entry, if_pos h, raw_step_entry, if_pos h,
        raw_step_entry, if_pos h, alistInsert_alistInsert]
    · rw [raw_step_entry, if_neg h, raw_step_entry, if_neg h,
        raw_step_entry, if_neg h]
  · intro z t m
    exact alistLookup_alistInsert_self z t m
  · intro acc z t st hz hl
    obtain ⟨ss, m⟩ := acc
    rw [raw_step_exit, if_pos hz]
    simp only at hl
    rw [hl]
  · intro acc z t hz hl
    obtain ⟨ss, m⟩ := acc
    rw [raw_step_exit, if_pos hz]
    simp only at hl
    rw [hl]
  · intro events kv hkv
    rw [build_raw_sessions]
    refine mem_sortBy.mpr ?_
    exact List.mem_append_right _ (List.mem_map_of_mem _ hkv)

/-! ## Replay-step characterization lemmas -/

theorem replay_append (cfg : ReplayCfg) (evs : List UnifiedEvent)
    (e : UnifiedEvent) :
    replay_and_evaluate cfg (evs ++ [e]) =
      replay_step cfg (replay_and_evaluate cfg evs) e := by
  simp [replay_and_evaluate, List.foldl_append]

theorem mem_setAdd {t x : Int} {l : List Int} :
    x ∈ setAdd t l ↔ x = t ∨ x ∈ l := by
  unfold setAdd
  by_cases h : t ∈ l
  · rw [if_pos h]
    constructor
    · exact Or.inr
    · rintro (rfl | hx)
      · exact h
      · exact hx
  · rw [if_neg h]
    simp [or_comm]

theorem mem_setDiscard {t x : Int} {l : List Int} :
    x ∈ setDiscard t l ↔ x ∈ l ∧ x ≠ t := by
  unfold setDiscard
  simp [List.mem_filter]

theorem replay_step_occ_of_not_xovis (cfg : ReplayCfg) (st : ReplayState)
    (e : UnifiedEvent) (h : e.source ≠ "xovis") :
    (replay_step cfg st e).occupancy = st.occupancy := by
  have hb : (e.source == "xovis") = false := beq_eq_false_iff_ne.mpr h
  unfold replay_step
  rw [hb]
  simp only [Bool.false_eq_true, if_false]
  by_cases ha : (e.source == "acc") = true
  · rw [ha]
    simp only [if_true]
    rcases e.pos_zone.bind fun n => alistLookup n cfg.pos_name_to_zone_id with _ | z
    · rfl
    · rfl
  · rw [Bool.not_eq_true _ |>.mp ha |> fun hf => hf]
    simp

theorem replay_step_entry_occ (cfg : ReplayCfg) (st : ReplayState)
    (e : UnifiedEvent) (z t : Int) (hsrc : e.source = "xovis")
    (hz : e.zone_id = some z) (ht : e.track_id = some t)
    (hmem : z ∈ cfg.pos_zone_ids) (htype : e.event_type = "ZONE_ENTRY") :
    replay_step cfg st e =
      { st with occupancy := fun w =>
          if w = z then setAdd t (st.occupancy w) else st.occupancy w } := by
  have hb : (e.source == "xovis") = true := beq_iff_eq.mpr hsrc
  have hbt : (e.event_type == "ZONE_ENTRY") = true := beq_iff_eq.mpr htype
  unfold replay_step
  rw [hb, hz, ht]
  simp [hmem, hbt]

theorem replay_step_exit_state (cfg : ReplayCfg) (st : ReplayState)
    (e : UnifiedEvent) (z t : Int) (hsrc : e.source = "xovis")
    (hz : e.zone_id = some z) (ht : e.track_id = some t)
    (hmem : z ∈ cfg.pos_zone_ids) (htype : e.event_type = "ZONE_EXIT") :
    replay_step cfg st e =
      { st with
        occupancy := fun w =>
          if w = z then setDiscard t (st.occupancy w) else st.occupancy w,
        recent_exits := fun w =>
          if w = z then st.recent_exits w ++ [⟨t, e.ts_ms⟩]
          else st.recent_exits w } := by
  have hb : (e.source == "xovis") = true := beq_iff_eq.mpr hsrc
  have hbt : (e.event_type == "ZONE_ENTRY") = false := by
    rw [htype]; decide
  have hbt2 : (e.event_type == "ZONE_EXIT") = true := beq_iff_eq.mpr htype
  unfold replay_step
  rw [hb, hz, ht]
  simp [hmem, hbt, hbt2]

theorem replay_step_other_type_occ (cfg : ReplayCfg) (st : ReplayState)
    (e : UnifiedEvent) (hsrc : e.source = "xovis")
    (h1 : e.event_type ≠ "ZONE_ENTRY") (h2 : e.event_type ≠ "ZONE_EXIT") :
    replay_step cfg st e = st := by
  have hb : (e.source == "xovis") = true := beq_iff_eq.mpr hsrc
  have hbt : (e.event_type == "ZONE_ENTRY") = false := beq_eq_false_iff_ne.mpr h1
  have hbt2 : (e.event_type == "ZONE_EXIT") = false := beq_eq_false_iff_ne.mpr h2
  unfold replay_step
  rw [hb, hbt, hbt2]
  rcases e.zone_id with _ | z <;> rcases e.track_id with _ | t <;>
    simp

theorem replay_step_not_pos_occ (cfg : ReplayCfg) (st : ReplayState)
    (e : UnifiedEvent) (z t : Int) (hsrc : e.source = "xovis")
    (hz : e.zone_id = some z) (ht : e.track_id = some t)
    (hmem : z ∉ cfg.pos_zone_ids) :
    replay_step cfg st e = st := by
  have hb : (e.source == "xovis") = true := beq_iff_eq.mpr hsrc
  unfold replay_step
  rw [hb, hz, ht]
  simp [hmem]

theorem enteredNotExited_append (evs : List UnifiedEvent) (e : UnifiedEvent)
    (p z : Int) :
    enteredNotExited (evs ++ [e]) p z =
      if isZoneEventFor p z e then e.event_type == "ZONE_ENTRY"
      else enteredNotExited evs p z := by
  unfold enteredNotExited
  rw [List.filter_append]
  by_cases h : isZoneEventFor p z e = true
  · rw [if_pos h]
    have : List.filter (isZoneEventFor p z) [e] = [e] := by
      simp [List.filter, h]
    rw [this, List.getLast?_concat]
  · rw [if_neg h]
    have hf : isZoneEventFor p z e = false := by simpa using h
    have : List.filter (isZoneEventFor p z) [e] = [] := by
      simp [List.filter, hf]
    rw [this, List.append_nil]

/-! ## Claim C6: occupancy equals entered-and-not-exited -/

/-- C6: after replaying any prefix of a merged stream whose sensor events
carry ids and are restricted to the POS zones of interest (as the readers
guarantee), `occupancy[z]` contains exactly the tracks whose last
entry/exit event for `z` in the prefix is an ENTRY — i.e. the tracks that
entered `z` and have not exited it. -/
theorem c6_occupancy_eq_entered_not_exited :
    ∀ (cfg : ReplayCfg) (events : List UnifiedEvent),
    (∀ e ∈ events, e.source = "xovis" →
      (∃ t, e.track_id = some t) ∧
      (∃ z, e.zone_id = some z ∧ z ∈ cfg.pos_zone_ids)) →
    ∀ z p, (p ∈ (replay_and_evaluate cfg events).occupancy z ↔
      enteredNotExited events p z = true) := by
  intro cfg events
  induction events using List.reverseRecOn with
  | nil =>
    intro _ z p
    simp [replay_and_evaluate, initialReplayState, enteredNotExited]
  | append_singleton evs e ih =>
    intro hx z p
    have hxevs : ∀ e2 ∈ evs, e2.source = "xovis" →
        (∃ t, e2.track_id = some t) ∧
        (∃ w, e2.zone_id = some w ∧ w ∈ cfg.pos_zone_ids) :=
      fun e2 he2 => hx e2 (List.mem_append_left _ he2)
    have ihz := ih hxevs
    rw [replay_append, enteredNotExited_append]
    by_cases hsrc : e.source = "xovis"
    · obtain ⟨⟨t, ht⟩, ⟨w, hw, hwmem⟩⟩ :=
        hx e (List.mem_append_right _ (List.mem_singleton_self e)) hsrc
      by_cases hent : e.event_type = "ZONE_ENTRY"
      · rw [replay_step_entry_occ cfg _ e w t hsrc hw ht hwmem hent]
        by_cases hzw : z = w
        · subst hzw
          simp only [if_pos rfl]
          by_cases hpt : p = t
          · subst hpt
            have hiz : isZoneEventFor p z e = true := by
              simp [isZoneEventFor, hsrc, hent, ht, hw]
            rw [if_pos hiz, hent]
            simp [mem_setAdd]
          · have hiz : isZoneEventFor p z e = false := by
              cases hb : isZoneEventFor p z e with
              | false => rfl
              | true =>
                exfalso
                simp only [isZoneEventFor, Bool.and_eq_true, beq_iff_eq,
                  Bool.or_eq_true] at hb
                obtain ⟨⟨⟨hs2, hty⟩, htr⟩, hzo⟩ := hb
                rw [ht] at htr
                exact hpt (Option.some_injective _ htr).symm
            rw [hiz]
            simp only [Bool.false_eq_true, if_false]
            rw [← ihz z p]
            simp [mem_setAdd, hpt]
        · simp only [if_neg hzw]
          have hiz : isZoneEventFor p z e = false := by
            cases hb : isZoneEventFor p z e with
            | false => rfl
            | true =>
              exfalso
              simp only [isZoneEventFor, Bool.and_eq_true, beq_iff_eq,
                Bool.or_eq_true] at hb
              obtain ⟨⟨⟨hs2, hty⟩, htr⟩, hzo⟩ := hb
              rw [hw] at hzo
              exact hzw (Option.some_injective _ hzo).symm
          rw [hiz]
          simp only [Bool.false_eq_true, if_false]
          exact ihz z p
      · by_cases hexi : e.event_type = "ZONE_EXIT"
        · rw [replay_step_exit_state cfg _ e w t hsrc hw ht hwmem hexi]
          by_cases hzw : z = w
          · subst hzw
            simp only [if_pos rfl]
            by_cases hpt : p = t
            · subst hpt
              have hiz : isZoneEventFor p z e = true := by
                simp [isZoneEventFor, hsrc, hexi, ht, hw]
              rw [if_pos hiz, hexi]
              have : (("ZONE_EXIT" : String) == "ZONE_ENTRY") = false := by
                decide
              rw [this]
              simp [mem_setDiscard]
            · have hiz : isZoneEventFor p z e = false := by
                cases hb : isZoneEventFor p z e with
                | false => rfl
                | true =>
                  exfalso
                  simp only [isZoneEventFor, Bool.and_eq_true, beq_iff_eq,
                    Bool.or_eq_true] at hb
                  obtain ⟨⟨⟨hs2, hty⟩, htr⟩, hzo⟩ := hb
                  rw [ht] at htr
                  exact hpt (Option.some_injective _ htr).symm
              rw [hiz]
              simp only [Bool.false_eq_true, if_false]
              rw [← ihz z p]
              simp [mem_setDiscard, hpt]
          · simp only [if_neg hzw]
            have hiz : isZoneEventFor p z e = false := by
              cases hb : isZoneEventFor p z e with
              | false => rfl
              | true =>
                exfalso
                simp only [isZoneEventFor, Bool.and_eq_true, beq_iff_eq,
                  Bool.or_eq_true] at hb
                obtain ⟨⟨⟨hs2, hty⟩, htr⟩, hzo⟩ := hb
                rw [hw] at hzo
                exact hzw (Option.some_injective _ hzo).symm
            rw [hiz]
            simp only [Bool.false_eq_true, if_false]
            exact ihz z p
        · rw [replay_step_other_type_occ cfg _ e hsrc hent hexi]
          have hiz : isZoneEventFor p z e = false := by
            cases hb : isZoneEventFor p z e with
            | false => rfl
            | true =>
              exfalso
              simp only [isZoneEventFor, Bool.and_eq_true, beq_iff_eq,
                Bool.or_eq_true] at hb
              obtain ⟨⟨⟨hs2, hty⟩, htr⟩, hzo⟩ := hb
              rcases hty with hty | hty
              · exact hent hty
              · exact hexi hty
          rw [hiz]
          simp only [Bool.false_eq_true, if_false]
          exact ihz z p
    · rw [replay_step_occ_of_not_xovis cfg _ e hsrc]
      have hiz : isZoneEventFor p z e = false := by
        cases hb : isZoneEventFor p z e with
        | false => rfl
        | true =>
          exfalso
          simp only [isZoneEventFor, Bool.and_eq_true, beq_iff_eq,
            Bool.or_eq_true] at hb
          obtain ⟨⟨⟨hs2, hty⟩, htr⟩, hzo⟩ := hb
          exact hsrc hs2
      rw [hiz]
      simp only [Bool.false_eq_true, if_false]
      exact ihz z p

/-- C6, witness: the occupancy characterization applied to a concrete
one-event stream that satisfies the restriction hypothesis. -/
theorem c6_occupancy_eq_entered_not_exited_witness :
    (∀ e ∈ ([{ ts_ms := 1000, source := "xovis", event_type := "ZONE_ENTRY",
               track_id := some 7, zone_id := some 5 }] : List UnifiedEvent),
      e.source = "xovis" →
        (∃ t, e.track_id = some t) ∧
        (∃ z, e.zone_id = some z ∧
          z ∈ (({ pos_name_to_zone_id := [("POS_1", 5)], pos_zone_ids := [5],
                  exit_grace_ms := 2500 } : ReplayCfg)).pos_zone_ids)) ∧
    ((7 : Int) ∈ (replay_and_evaluate
        { pos_name_to_zone_id := [("POS_1", 5)], pos_zone_ids := [5],
          exit_grace_ms := 2500 }
        [{ ts_ms := 1000, source := "xovis", event_type := "ZONE_ENTRY",
           track_id := some 7, zone_id := some 5 }]).occupancy 5 ↔
      enteredNotExited
        [{ ts_ms := 1000, source := "xovis", event_type := "ZONE_ENTRY",
           track_id := some 7, zone_id := some 5 }] 7 5 = true) :=
  ⟨by
    intro e he hs
    rcases List.mem_singleton.mp he with rfl
    exact ⟨⟨7, rfl⟩, ⟨5, rfl, by simp⟩⟩,
   c6_occupancy_eq_entered_not_exited
     { pos_name_to_zone_id := [("POS_1", 5)], pos_zone_ids := [5],
       exit_grace_ms := 2500 }
     [{ ts_ms := 1000, source := "xovis", event_type := "ZONE_ENTRY",
        track_id := some 7, zone_id := some 5 }]
     (by
       intro e he hs
       rcases List.mem_singleton.mp he with rfl
       exact ⟨⟨7, rfl⟩, ⟨5, rfl, by simp⟩⟩) 5 7⟩

/-! ## Claim C4: grace-window matching -/

theorem replay_grace_disjoint_aux (cfg : ReplayCfg) (events : List UnifiedEvent) :
    ∀ (st : ReplayState),
    (∀ r ∈ st.results, ∀ x ∈ r.grace_candidates.getD [], x ∉ r.candidates) →
    ∀ r ∈ (events.foldl (replay_step cfg) st).results,
      ∀ x ∈ r.grace_candidates.getD [], x ∉ r.candidates := by
  induction events with
  | nil =>
    intro st h
    simpa using h
  | cons e rest ih =>
    intro st h
    simp only [List.foldl_cons]
    apply ih
    intro r hr
    revert hr
    unfold replay_step
    split
    · split
      · split
        · split
          · intro hr; exact h r hr
          · split
            · intro hr; exact h r hr
            · intro hr; exact h r hr
        · intro hr; exact h r hr
      · intro hr; exact h r hr
    · split
      · split
        · intro hr; exact h r hr
        · intro hr
          simp only [List.mem_append, List.mem_singleton] at hr
          rcases hr with hr | rfl
          · exact h r hr
          · intro x hx
            simp only at hx ⊢
            split at hx
            · simp only [Option.getD_some] at hx
              rw [mem_sortBy, List.mem_dedup, List.mem_filter] at hx
              intro hmem
              have := hx.2
              simp only [Bool.not_eq_eq_eq_not, Bool.not_true] at this
              have hcont : List.contains (sortBy intLE (st.occupancy _)) x = false :=
                this
              exact absurd hmem (by simpa using hcont)
            · simp at hx
      · intro hr; exact h r hr

/-- C4: with grace window `g`, after `EXIT(7, zone 5, ts=1000)` a payment
at the zone at `ts = 1000 + g` (occupancy empty) is matched with
`match_type = "grace"` and `7` among the grace candidates, while the same
payment at `ts = 1000 + g + 1` yields `match_type = "none"`; and in every
replay the grace-candidate list of a result never contains an id already
present in its candidates. -/
theorem c4_grace_boundary_and_disjoint :
    (∀ g : Int,
      (replay_and_evaluate
          { pos_name_to_zone_id := [("POS_1", 5)], pos_zone_ids := [5],
            exit_grace_ms := g }
          [{ ts_ms := 1000, source := "xovis", event_type := "ZONE_EXIT",
             track_id := some 7, zone_id := some 5 },
           { ts_ms := 1000 + g, source := "acc", event_type := "ACC",
             track_id := none, zone_id := none, receipt_id := some "r1",
             kiosk_ip := some "k", pos_zone := some "POS_1" }]).results.map
        (fun r => (r.match_type, r.grace_candidates)) =
      [("grace", some [7])]) ∧
    (∀ g : Int,
      (replay_and_evaluate
          { pos_name_to_zone_id := [("POS_1", 5)], pos_zone_ids := [5],
            exit_grace_ms := g }
          [{ ts_ms := 1000, source := "xovis", event_type := "ZONE_EXIT",
             track_id := some 7, zone_id := some 5 },
           { ts_ms := 1000 + g + 1, source := "acc", event_type := "ACC",
             track_id := none, zone_id := none, receipt_id := some "r1",
             kiosk_ip := some "k", pos_zone := some "POS_1" }]).results.map
        (fun r => (r.match_type, r.grace_candidates)) =
      [("none", none)]) ∧
    (∀ (cfg : ReplayCfg) (events : List UnifiedEvent) (r : AccResult) (x : Int),
      r ∈ (replay_and_evaluate cfg events).results →
      x ∈ r.grace_candidates.getD [] → x ∉ r.candidates) := by
  refine ⟨?_, ?_, ?_⟩
  · intro g
    simp only [replay_and_evaluate, List.foldl_cons, List.foldl_nil]
    rw [replay_step_exit_state
      { pos_name_to_zone_id := [("POS_1", 5)], pos_zone_ids := [5],
        exit_grace_ms := g }
      initialReplayState
      { ts_ms := 1000, source := "xovis", event_type := "ZONE_EXIT",
        track_id := some 7, zone_id := some 5 }
      5 7 rfl rfl rfl (by simp) rfl]
    unfold replay_step
    simp only [initialReplayState]
    norm_num [alistLookup, Option.bind, setDiscard, List.filter, sortBy, intLE,
      insertLe, List.dedup, List.contains, List.elem, add_sub_cancel_right]
    simp
  · intro g
    have harith : 1000 + g + 1 - g = 1001 := by ring
    simp only [replay_and_evaluate, List.foldl_cons, List.foldl_nil]
    rw [replay_step_exit_state
      { pos_name_to_zone_id := [("POS_1", 5)], pos_zone_ids := [5],
        exit_grace_ms := g }
      initialReplayState
      { ts_ms := 1000, source := "xovis", event_type := "ZONE_EXIT",
        track_id := some 7, zone_id := some 5 }
      5 7 rfl rfl rfl (by simp) rfl]
    unfold replay_step
    simp only [initialReplayState]
    norm_num [alistLookup, Option.bind, setDiscard, List.filter, sortBy, intLE,
      insertLe, List.dedup, List.contains, List.elem, harith]
    simp
  · intro cfg events r x hr hx
    exact replay_grace_disjoint_aux cfg events initialReplayState
      (by simp [initialReplayState]) r hr x hx

/-! ## Claim C8: well-formedness of builder output

More association-list lemmas, then an invariant carried through the
builder's fold. -/

theorem mem_alistInsert {κ ν : Type} [BEq κ] [LawfulBEq κ] (k : κ) (v : ν)
    (m : List (κ × ν)) (kv : κ × ν) (h : kv ∈ alistInsert k v m) :
    kv = (k, v) ∨ kv ∈ m := by
  induction m with
  | nil =>
    simp only [alistInsert, List.mem_singleton] at h
    exact Or.inl h
  | cons q rest ih =>
    obtain ⟨k0, v0⟩ := q
    simp only [alistInsert] at h
    by_cases hk : (k0 == k) = true
    · rw [if_pos hk] at h
      rcases List.mem_cons.mp h with rfl | h
      · exact Or.inl (by rw [eq_of_beq hk])
      · exact Or.inr (List.mem_cons_of_mem _ h)
    · rw [if_neg hk] at h
      rcases List.mem_cons.mp h with rfl | h
      · exact Or.inr (List.mem_cons_self _ _)
      · rcases ih h with h | h
        · exact Or.inl h
        · exact Or.inr (List.mem_cons_of_mem _ h)

theorem alistInsert_keys {κ ν : Type} [BEq κ] [LawfulBEq κ] (k : κ) (v : ν)
    (m : List (κ × ν)) :
    (alistInsert k v m).map Prod.fst =
      if k ∈ m.map Prod.fst then m.map Prod.fst else m.map Prod.fst ++ [k] := by
  induction m with
  | nil => simp [alistInsert]
  | cons q rest ih =>
    obtain ⟨k0, v0⟩ := q
    simp only [alistInsert]
    by_cases hk : (k0 == k) = true
    · have : k0 = k := eq_of_beq hk
      subst this
      simp
    · have hne : k ≠ k0 := fun he => hk (by simp [he])
      simp only [hk, Bool.false_eq_true, ite_false, List.map_cons, ih]
      by_cases hm : k ∈ rest.map Prod.fst
      · simp [hm, hne]
      · simp [hm, hne]

theorem alistLookup_eq_none_of_not_mem {κ ν : Type} [BEq κ] [LawfulBEq κ]
    (k : κ) (m : List (κ × ν)) (h : k ∉ m.map Prod.fst) :
    alistLookup k m = none := by
  induction m with
  | nil => rfl
  | cons q rest ih =>
    obtain ⟨k0, v0⟩ := q
    simp only [List.map_cons, List.mem_cons] at h
    push_neg at h
    simp only [alistLookup]
    rw [if_neg (fun hb => h.1 (eq_of_beq hb).symm)]
    exact ih h.2

theorem alistLookup_alistInsert_ne {κ ν : Type} [BEq κ] [LawfulBEq κ]
    (k k2 : κ) (v : ν) (m : List (κ × ν)) (hne : k2 ≠ k) :
    alistLookup k2 (alistInsert k v m) = alistLookup k2 m := by
  induction m with
  | nil =>
    simp only [alistInsert, alistLookup]
    rw [if_neg (fun hb => hne (eq_of_beq hb).symm)]
  | cons q rest ih =>
    obtain ⟨k0, v0⟩ := q
    simp only [alistInsert]
    by_cases hk : (k0 == k) = true
    · have hkk : k0 = k := eq_of_beq hk
      subst hkk
      rw [if_pos hk]
      simp only [alistLookup]
      rw [if_neg (fun hb => hne (eq_of_beq hb).symm),
        if_neg (fun hb => hne (eq_of_beq hb).symm)]
    · rw [if_neg hk]
      simp only [alistLookup]
      by_cases h0 : (k0 == k2) = true
      · rw [if_pos h0, if_pos h0]
      · rw [if_neg h0, if_neg h0, ih]

theorem alistLookup_mem {κ ν : Type} [BEq κ] [LawfulBEq κ]
    (k : κ) (v : ν) (m : List (κ × ν)) (h : alistLookup k m = some v) :
    (k, v) ∈ m := by
  induction m with
  | nil => cases h
  | cons q rest ih =>
    obtain ⟨k0, v0⟩ := q
    simp only [alistLookup] at h
    by_cases hk : (k0 == k) = true
    · rw [if_pos hk] at h
      have hv : v0 = v := Option.some_injective _ h
      have hk2 : k0 = k := eq_of_beq hk
      subst hv; subst hk2
      exact List.mem_cons_self _ _
    · rw [if_neg hk] at h
      exact List.mem_cons_of_mem _ (ih h)

theorem alistLookup_of_mem_nodup {κ ν : Type} [BEq κ] [LawfulBEq κ]
    (k : κ) (v : ν) (m : List (κ × ν)) (hnd : (m.map Prod.fst).Nodup)
    (h : (k, v) ∈ m) : alistLookup k m = some v := by
  induction m with
  | nil => cases h
  | cons q rest ih =>
    obtain ⟨k0, v0⟩ := q
    simp only [List.map_cons, List.nodup_cons] at hnd
    rcases List.mem_cons.mp h with he | h
    · have h1 : k0 = k := congrArg Prod.fst he.symm
      have h2 : v0 = v := congrArg Prod.snd he.symm
      subst h1; subst h2
      simp [alistLookup]
    · have hkr : k ∈ rest.map Prod.fst :=
        List.mem_map_of_mem Prod.fst h
      have hne : (k0 == k) = false := by
        rw [beq_eq_false_iff_ne]
        intro he
        exact hnd.1 (he ▸ hkr)
      simp only [alistLookup, hne, Bool.false_eq_true, ite_false]
      exact ih hnd.2 h

theorem alistErase_sublist {κ ν : Type} [BEq κ] (k : κ) (m : List (κ × ν)) :
    (alistErase k m).Sublist m := by
  induction m with
  | nil => simp [alistErase]
  | cons q rest ih =>
    obtain ⟨k0, v0⟩ := q
    simp only [alistErase]
    by_cases hk : (k0 == k) = true
    · rw [if_pos hk]
      exact List.sublist_cons_self _ _
    · rw [if_neg hk]
      exact ih.cons₂ _

theorem alistLookup_alistErase_self {κ ν : Type} [BEq κ] [LawfulBEq κ]
    (k : κ) (m : List (κ × ν)) (hnd : (m.map Prod.fst).Nodup) :
    alistLookup k (alistErase k m) = none := by
  induction m with
  | nil => rfl
  | cons q rest ih =>
    obtain ⟨k0, v0⟩ := q
    simp only [List.map_cons, List.nodup_cons] at hnd
    simp only [alistErase]
    by_cases hk : (k0 == k) = true
    · rw [if_pos hk]
      have : k0 = k := eq_of_beq hk
      subst this
      exact alistLookup_eq_none_of_not_mem k0 rest hnd.1
    · rw [if_neg hk]
      simp only [alistLookup, hk, Bool.false_eq_true, ite_false]
      exact ih hnd.2

theorem alistLookup_alistErase_ne {κ ν : Type} [BEq κ] [LawfulBEq κ]
    (k k2 : κ) (m : List (κ × ν)) (hne : k2 ≠ k) :
    alistLookup k2 (alistErase k m) = alistLookup k2 m := by
  induction m with
  | nil => rfl
  | cons q rest ih =>
    obtain ⟨k0, v0⟩ := q
    simp only [alistErase, alistLookup]
    by_cases hk : (k0 == k) = true
    · rw [if_pos hk]
      have : k0 = k := eq_of_beq hk
      subst this
      rw [if_neg (fun hb => hne (eq_of_beq hb).symm)]
    · rw [if_neg hk]
      simp only [alistLookup]
      by_cases h0 : (k0 == k2) = true
      · rw [if_pos h0, if_pos h0]
      · rw [if_neg h0, if_neg h0, ih]

theorem sessLE_total (a b : Session) : sessLE a b = false → sessLE b a = true := by
  intro h
  simp only [sessLE, decide_eq_false_iff_not, decide_eq_true_eq, not_le] at *
  omega

theorem sessLE_trans (a b c : Session) :
    sessLE a b = true → sessLE b c = true → sessLE a c = true := by
  intro h1 h2
  simp only [sessLE, decide_eq_true_eq] at *
  omega

theorem getLast?_mem_self {α : Type} {l : List α} {a : α}
    (h : l.getLast? = some a) : a ∈ l := by
  rcases List.mem_getLast?_eq_getLast
      (show a ∈ l.getLast? by rw [h]; rfl) with ⟨hne, heq⟩
  rw [heq]
  exact List.getLast_mem hne

/-- A session strictly precedes another: its end (when closed) and its
start lie strictly before the other's start.  This relation is transitive
and is what the builder's fold maintains per zone. -/
def sessBefore (a b : Session) : Prop :=
  (∀ ea, a.stop = some ea → ea < b.start) ∧ a.start < b.start

theorem sessBefore_trans : Transitive sessBefore := by
  rintro a b c ⟨hab, hab2⟩ ⟨hbc, hbc2⟩
  exact ⟨fun ea hea => lt_trans (hab ea hea) hbc2, lt_trans hab2 hbc2⟩

/-- Invariant of the builder fold: all stored timestamps are ≤ `T`,
emitted sessions are closed with `start < stop`, each zone's emitted
sessions form a strictly ordered chain, the open map has unique keys, and
a zone's open entry starts strictly after all of that zone's emitted
ends. -/
def BuilderInv (p : List Session × List (String × Int)) (T : Int) : Prop :=
  (∀ s ∈ p.1, ∃ e, s.stop = some e ∧ s.start < e ∧ e ≤ T) ∧
  (∀ kv ∈ p.2, kv.2 ≤ T) ∧
  ((p.2.map Prod.fst).Nodup) ∧
  (∀ z : String, List.Chain' sessBefore (p.1.filter fun s => s.zone == z)) ∧
  (∀ z st, alistLookup z p.2 = some st →
    ∀ s ∈ p.1.filter (fun s => s.zone == z), ∀ e, s.stop = some e → e < st)

theorem BuilderInv.mono {p : List Session × List (String × Int)} {T T2 : Int}
    (h : BuilderInv p T) (hle : T ≤ T2) : BuilderInv p T2 := by
  obtain ⟨h1, h2, h3, h4, h5⟩ := h
  refine ⟨?_, ?_, h3, h4, h5⟩
  · intro s hs
    obtain ⟨e, he, hlt, hT⟩ := h1 s hs
    exact ⟨e, he, hlt, le_trans hT hle⟩
  · intro kv hkv
    exact le_trans (h2 kv hkv) hle

theorem raw_step_inv (p : List Session × List (String × Int)) (e : JEvent)
    (T : Int) (hinv : BuilderInv p T) (ht : T < e.ts) :
    BuilderInv (raw_step p e) e.ts := by
  have hmono := hinv.mono (le_of_lt ht)
  obtain ⟨h1, h2, h3, h4, h5⟩ := hinv
  obtain ⟨ty, t, zo⟩ := e
  rcases zo with _ | z
  · simpa [raw_step] using hmono
  · simp only [raw_step]
    by_cases hpos : startsWithPOS z = true
    · rw [if_pos hpos]
      by_cases hent : (ty == "zone_entry") = true
      · rw [if_pos hent]
        refine ⟨?_, ?_, ?_, h4, ?_⟩
        · intro s hs
          obtain ⟨e, he, hlt, hT⟩ := h1 s hs
          exact ⟨e, he, hlt, le_trans hT (le_of_lt ht)⟩
        · intro kv hkv
          rcases mem_alistInsert z t p.2 kv hkv with rfl | hkv
          · exact le_refl t
          · exact le_trans (h2 kv hkv) (le_of_lt ht)
        · show ((alistInsert z t p.2).map Prod.fst).Nodup
          rw [alistInsert_keys]
          by_cases hz : z ∈ p.2.map Prod.fst
          · simpa [hz] using h3
          · rw [if_neg hz]
            exact h3.append (List.nodup_singleton _)
              (by simpa [List.disjoint_singleton] using hz)
        · intro z2 st hst s hs e he
          by_cases hz2 : z2 = z
          · subst hz2
            rw [alistLookup_alistInsert_self] at hst
            have hstt : st = t := (Option.some_injective _ hst).symm
            subst hstt
            obtain ⟨e2, he2, _, hT⟩ := h1 s (List.mem_of_mem_filter hs)
            rw [he] at he2
            have : e = e2 := Option.some_injective _ he2
            subst this
            exact lt_of_le_of_lt hT ht
          · rw [alistLookup_alistInsert_ne z z2 t p.2 hz2] at hst
            exact h5 z2 st hst s hs e he
      · rw [if_neg hent]
        by_cases hexi : (ty == "zone_exit") = true
        · rw [if_pos hexi]
          rcases hl : alistLookup z p.2 with _ | st
          · exact hmono
          · have hstT : st ≤ T := h2 (z, st) (alistLookup_mem z st p.2 hl)
            refine ⟨?_, ?_, ?_, ?_, ?_⟩
            · intro s hs
              rcases List.mem_append.mp hs with hs | hs
              · obtain ⟨e, he, hlt, hT⟩ := h1 s hs
                exact ⟨e, he, hlt, le_trans hT (le_of_lt ht)⟩
              · rcases List.mem_singleton.mp hs with rfl
                exact ⟨t, rfl, lt_of_le_of_lt hstT ht, le_refl t⟩
            · intro kv hkv
              exact le_trans
                (h2 kv ((alistErase_sublist z p.2).subset hkv))
                (le_of_lt ht)
            · exact h3.sublist ((alistErase_sublist z p.2).map Prod.fst)
            · intro z2
              rw [List.filter_append]
              by_cases hz2 : z2 = z
              · subst hz2
                have hf : List.filter (fun s => s.zone == z2)
                    ([{ zone := z2, start := st, stop := some t }] :
                      List Session) =
                    ([{ zone := z2, start := st, stop := some t }] :
                      List Session) := by
                  simp [List.filter]
                rw [hf]
                refine List.chain'_append.mpr ⟨h4 z2, List.chain'_singleton _, ?_⟩
                intro x hx y hy
                have hx2 : x ∈ List.filter (fun s => s.zone == z2) p.1 :=
                  getLast?_mem_self hx
                have hy2 : y = ({ zone := z2, start := st, stop := some t } :
                    Session) := by
                  have := hy
                  simp only [List.head?_cons, Option.mem_def,
                    Option.some_inj] at this
                  exact this.symm
                subst hy2
                obtain ⟨e, he, hlt, _⟩ := h1 x (List.mem_of_mem_filter hx2)
                refine ⟨?_, ?_⟩
                · intro ea hea
                  exact h5 z2 st hl x hx2 ea hea
                · exact lt_trans hlt (h5 z2 st hl x hx2 e he)
              · have hf : List.filter (fun s => s.zone == z2)
                    ([{ zone := z, start := st, stop := some t }] :
                      List Session) = [] := by
                  simp [List.filter, beq_eq_false_iff_ne.mpr (Ne.symm hz2)]
                rw [hf, List.append_nil]
                exact h4 z2
            · intro z2 st2 hst2 s hs e he
              by_cases hz2 : z2 = z
              · subst hz2
                rw [alistLookup_alistErase_self z2 p.2 h3] at hst2
                cases hst2
              · rw [alistLookup_alistErase_ne z z2 p.2 hz2] at hst2
                rw [List.filter_append] at hs
                have hf : List.filter (fun s => s.zone == z2)
                    ([{ zone := z, start := st, stop := some t }] :
                      List Session) = [] := by
                  simp [List.filter, beq_eq_false_iff_ne.mpr (Ne.symm hz2)]
                rw [hf, List.append_nil] at hs
                exact h5 z2 st2 hst2 s hs e he
        · rw [if_neg hexi]
          exact hmono
    · rw [if_neg hpos]
      exact hmono

theorem filter_sortBy {α : Type} {le : α → α → Bool}
    (htot : ∀ a b, le a b = false → le b a = true)
    (htrans : ∀ a b c, le a b = true → le b c = true → le a c = true)
    (p : α → Bool) (l : List α) :
    (sortBy le l).filter p = sortBy le (l.filter p) := by
  induction l with
  | nil => rfl
  | cons a rest ih =>
    simp only [sortBy, List.filter_cons]
    rw [filter_insertLe htrans p a (sortBy_pairwise htot htrans rest)]
    cases hpa : p a
    · simp only [Bool.false_eq_true, ite_false]
      exact ih
    · simp only [ite_true, sortBy, ih]

theorem exists_lower_bound (events : List JEvent) :
    ∃ T : Int, ∀ e ∈ events, T < e.ts := by
  induction events with
  | nil => exact ⟨0, by simp⟩
  | cons e rest ih =>
    obtain ⟨T, hT⟩ := ih
    refine ⟨min T (e.ts - 1), ?_⟩
    intro e2 he2
    rcases List.mem_cons.mp he2 with rfl | he2
    · exact lt_of_le_of_lt (min_le_right _ _) (by omega)
    · exact lt_of_le_of_lt (min_le_left _ _) (hT e2 he2)

theorem builder_fold_inv (events : List JEvent) :
    ∀ (p : List Session × List (String × Int)) (T : Int),
    BuilderInv p T → (∀ e ∈ events, T < e.ts) →
    List.Pairwise (fun a b => a.ts < b.ts) events →
    ∃ T2, BuilderInv (events.foldl raw_step p) T2 := by
  induction events with
  | nil =>
    intro p T h _ _
    exact ⟨T, by simpa using h⟩
  | cons e rest ih =>
    intro p T h hlt hpair
    simp only [List.foldl_cons]
    rcases List.pairwise_cons.mp hpair with ⟨he, hrest⟩
    exact ih (raw_step p e) e.ts
      (raw_step_inv p e T h (hlt e (List.mem_cons_self e rest)))
      (fun e2 he2 => he e2 he2) hrest

theorem opens_filter (m : List (String × Int)) (z : String) :
    ((m.map fun kv => ({ zone := kv.1, start := kv.2, stop := none } :
        Session)).filter fun s => s.zone == z) =
      (m.filter fun kv => kv.1 == z).map fun kv =>
        ({ zone := kv.1, start := kv.2, stop := none } : Session) := by
  induction m with
  | nil => rfl
  | cons kv rest ih =>
    simp only [List.map_cons, List.filter_cons]
    cases hz : (kv.1 == z)
    · simpa [hz] using ih
    · simpa [hz] using ih

theorem filter_key_len_le_one {ν : Type} (m : List (String × ν)) (z : String)
    (hnd : (m.map Prod.fst).Nodup) :
    (m.filter fun kv => kv.1 == z).length ≤ 1 := by
  induction m with
  | nil => simp
  | cons kv rest ih =>
    simp only [List.map_cons, List.nodup_cons] at hnd
    simp only [List.filter_cons]
    cases hz : (kv.1 == z)
    · simpa using ih hnd.2
    · have hz2 : kv.1 = z := eq_of_beq hz
      have : (rest.filter fun kv2 => kv2.1 == z) = [] := by
        rw [List.filter_eq_nil_iff]
        intro kv2 hkv2 hb
        exact hnd.1 (hz2 ▸ eq_of_beq hb ▸ List.mem_map_of_mem Prod.fst hkv2)
      simp [this]

/-- C8, counterexample: for the event list
`[entry POS_1 at ts=10, exit POS_1 at ts=5]` (timestamps out of order) the
builder emits the closed session `(POS_1, 10, 5)`, whose start is *not*
strictly below its end — the claim fails for unordered per-person event
lists. -/
theorem c8_reversed_timestamps_cex :
    build_raw_sessions
        [⟨"zone_entry", 10, some "POS_1"⟩, ⟨"zone_exit", 5, some "POS_1"⟩] =
      [⟨"POS_1", 10, some 5⟩] ∧ ¬((10 : Int) < 5) := by
  decide

/-- C8, amended: when the per-person events arrive in strictly increasing
timestamp order, then for every zone the builder's sessions for that zone
are sorted by start, pairwise non-overlapping (each closed session ends
strictly before the next starts, and at most one session — the last — is
unclosed), and every closed session satisfies `start < end`. -/
theorem c8_builder_output_wellformed :
    ∀ (events : List JEvent),
    List.Pairwise (fun a b => a.ts < b.ts) events →
    ∀ z : String,
    (((build_raw_sessions events).filter fun s => s.zone == z).Pairwise
        fun a b => a.start ≤ b.start) ∧
    (∀ s ∈ build_raw_sessions events, ∀ e, s.stop = some e → s.start < e) ∧
    (((build_raw_sessions events).filter fun s => s.zone == z).Pairwise
        fun a b => ∀ ea, a.stop = some ea → ea < b.start) ∧
    ((((build_raw_sessions events).filter fun s => s.zone == z).filter
        fun s => s.stop.isNone).length ≤ 1) := by
  intro events hpair z
  obtain ⟨T0, hT0⟩ := exists_lower_bound events
  have hinit : BuilderInv ([], []) T0 := by
    refine ⟨by simp, by simp, by simp, by simp, ?_⟩
    intro z2 st hst
    cases hst
  obtain ⟨T, hinv⟩ := builder_fold_inv events ([], []) T0 hinit hT0 hpair
  obtain ⟨h1, h2, h3, h4, h5⟩ := hinv
  set p := events.foldl raw_step ([], []) with hp
  set opens := p.2.map fun kv =>
    ({ zone := kv.1, start := kv.2, stop := none } : Session) with hopens
  set L := p.1 ++ opens with hL
  have hLz : L.filter (fun s => s.zone == z) =
      p.1.filter (fun s => s.zone == z) ++
        (p.2.filter fun kv => kv.1 == z).map fun kv =>
          ({ zone := kv.1, start := kv.2, stop := none } : Session) := by
    rw [hL, List.filter_append, hopens, opens_filter]
  have hlen1 : (p.2.filter fun kv => kv.1 == z).length ≤ 1 :=
    filter_key_len_le_one p.2 z h3
  have hchain : List.Chain' sessBefore (L.filter fun s => s.zone == z) := by
    rw [hLz]
    rcases hfz : p.2.filter (fun kv => kv.1 == z) with _ | ⟨kv, rest2⟩
    · rw [hfz]
      simpa using h4 z
    · have hrest2 : rest2 = [] := by
        rw [hfz] at hlen1
        simp only [List.length_cons] at hlen1
        exact List.length_eq_zero.mp (by omega)
      subst hrest2
      have hkvz : kv.1 = z := by
        have := List.mem_filter.mp (hfz ▸ List.mem_cons_self kv [])
        exact eq_of_beq this.2
      have hkvm : kv ∈ p.2 :=
        List.mem_of_mem_filter (hfz ▸ List.mem_cons_self kv [])
      have hlook : alistLookup z p.2 = some kv.2 := by
        rw [← hkvz]
        exact alistLookup_of_mem_nodup kv.1 kv.2 p.2 h3 hkvm
      rw [hfz]
      simp only [List.map_cons, List.map_nil]
      refine List.chain'_append.mpr ⟨h4 z, List.chain'_singleton _, ?_⟩
      intro x hx y hy
      have hx2 : x ∈ p.1.filter (fun s => s.zone == z) := getLast?_mem_self hx
      have hy2 : y = ({ zone := kv.1, start := kv.2, stop := none } :
          Session) := by
        have := hy
        simp only [List.head?_cons, Option.mem_def, Option.some_inj] at this
        exact this.symm
      subst hy2
      obtain ⟨e, he, hlt, _⟩ := h1 x (List.mem_of_mem_filter hx2)
      refine ⟨fun ea hea => h5 z kv.2 hlook x hx2 ea hea, ?_⟩
      exact lt_trans hlt (h5 z kv.2 hlook x hx2 e he)
  have hpw : (L.filter fun s => s.zone == z).Pairwise sessBefore := by
    haveI : IsTrans Session sessBefore :=
      ⟨fun a b c hab hbc => sessBefore_trans hab hbc⟩
    exact List.chain'_iff_pairwise.mp hchain
  have hpwle : (L.filter fun s => s.zone == z).Pairwise
      fun a b => sessLE a b = true := by
    refine hpw.imp ?_
    intro a b hab
    simp only [sessLE, decide_eq_true_eq]
    exact le_of_lt hab.2
  have hbuild : build_raw_sessions events = sortBy sessLE L := rfl
  have hfz2 : (build_raw_sessions events).filter (fun s => s.zone == z) =
      L.filter fun s => s.zone == z := by
    rw [hbuild, filter_sortBy sessLE_total sessLE_trans, sortBy_sorted_id hpwle]
  refine ⟨?_, ?_, ?_, ?_⟩
  · rw [hfz2]
    refine hpwle.imp ?_
    intro a b hab
    simpa [sessLE] using hab
  · intro s hs e he
    have hsl : s ∈ L := mem_sortBy.mp (hbuild ▸ hs)
    rcases List.mem_append.mp hsl with hsl | hsl
    · obtain ⟨e2, he2, hlt, _⟩ := h1 s hsl
      rw [he] at he2
      rwa [Option.some_injective _ he2]
    · rcases List.mem_map.mp hsl with ⟨kv, _, rfl⟩
      cases he
  · rw [hfz2]
    exact hpw.imp fun hab => hab.1
  · rw [hfz2, hLz, List.filter_append, List.length_append]
    have hz0 : (List.filter (fun s => s.stop.isNone)
        (p.1.filter fun s => s.zone == z)).length = 0 := by
      rw [List.length_eq_zero, List.filter_eq_nil_iff]
      intro s hs hnone
      obtain ⟨e, he, _, _⟩ := h1 s (List.mem_of_mem_filter hs)
      rw [he] at hnone
      cases hnone
    rw [hz0]
    have hle2 : (List.filter (fun s => s.stop.isNone)
          ((p.2.filter fun kv => kv.1 == z).map fun kv =>
            ({ zone := kv.1, start := kv.2, stop := none } : Session))).length ≤
        ((p.2.filter fun kv => kv.1 == z).map fun kv =>
            ({ zone := kv.1, start := kv.2, stop := none } : Session)).length :=
      List.length_filter_le _ _
    have hle3 : ((p.2.filter fun kv => kv.1 == z).map fun kv =>
        ({ zone := kv.1, start := kv.2, stop := none } : Session)).length ≤ 1 := by
      simpa using hlen1
    omega

/-- C8, witness: the well-formedness theorem applied to a concrete
strictly-increasing event list. -/
theorem c8_builder_output_wellformed_witness :
    List.Pairwise (fun a b => a.ts < b.ts)
      ([⟨"zone_entry", 0, some "POS_1"⟩, ⟨"zone_exit", 10, some "POS_1"⟩,
        ⟨"zone_entry", 20, some "POS_1"⟩] : List JEvent) ∧
    (∀ s ∈ build_raw_sessions
        [⟨"zone_entry", 0, some "POS_1"⟩, ⟨"zone_exit", 10, some "POS_1"⟩,
         ⟨"zone_entry", 20, some "POS_1"⟩],
      ∀ e, s.stop = some e → s.start < e) ∧
    (((build_raw_sessions
        [⟨"zone_entry", 0, some "POS_1"⟩, ⟨"zone_exit", 10, some "POS_1"⟩,
         ⟨"zone_entry", 20, some "POS_1"⟩]).filter
          fun s => s.zone == "POS_1").Pairwise
      fun a b => ∀ ea, a.stop = some ea → ea < b.start) :=
  ⟨by decide,
   (c8_builder_output_wellformed
     [⟨"zone_entry", 0, some "POS_1"⟩, ⟨"zone_exit", 10, some "POS_1"⟩,
      ⟨"zone_entry", 20, some "POS_1"⟩] (by decide) "POS_1").2.1,
   (c8_builder_output_wellformed
     [⟨"zone_entry", 0, some "POS_1"⟩, ⟨"zone_exit", 10, some "POS_1"⟩,
      ⟨"zone_entry", 20, some "POS_1"⟩] (by decide) "POS_1").2.2.1⟩

/-! ## Claim C9: idempotence of the Session Merger -/

/-- C9, counterexample: merging is *not* idempotent for arbitrary session
lists.  First input: zone A `[0,50],[60,70]` with zone B `[0,100],[5,10]`
(overlapping same-zone sessions) at threshold 100 — the first pass leaves
A split (B's raw `[0,100]` overlaps the gap `[50,60]`), but shrinks B to
`[0,10]`, so the second pass merges A into `[0,70]`.  Second input: the
per-zone-chained but unsorted list `[B:[100,103], A:[0,5], A:[100,110]]`
at threshold 10 — re-merging reorders the two equal-start sessions. -/
theorem c9_not_idempotent_cex :
    (merge_sessions
        (merge_sessions
          [⟨"A", 0, some 50⟩, ⟨"A", 60, some 70⟩,
           ⟨"B", 0, some 100⟩, ⟨"B", 5, some 10⟩] (some 100)) (some 100) ≠
      merge_sessions
        [⟨"A", 0, some 50⟩, ⟨"A", 60, some 70⟩,
         ⟨"B", 0, some 100⟩, ⟨"B", 5, some 10⟩] (some 100)) ∧
    (merge_sessions
        (merge_sessions
          [⟨"B", 100, some 103⟩, ⟨"A", 0, some 5⟩, ⟨"A", 100, some 110⟩]
          (some 10)) (some 10) ≠
      merge_sessions
        [⟨"B", 100, some 103⟩, ⟨"A", 0, some 5⟩, ⟨"A", 100, some 110⟩]
        (some 10)) := by
  decide

/-- One zone's sessions are chained: each session is closed and ends no
later than the next one starts (so only the zone's last session can be
open). -/
def zoneChainB (a b : Session) : Bool :=
  match a.stop with
  | none => false
  | some ea => decide (ea ≤ b.start)

/-- A single session is well formed: if closed, it starts no later than it
ends. -/
def sessWf (s : Session) : Prop := ∀ e, s.stop = some e → s.start ≤ e

/-- Range-end comparison with `none` as "open/unbounded": `optCovers a b`
says a range ending at `b` reaches at least as far as one ending at `a`. -/
def optCovers : Option Int → Option Int → Prop
  | _, none => True
  | none, some _ => False
  | some x, some y => x ≤ y

theorem optCovers_refl (a : Option Int) : optCovers a a := by
  cases a <;> simp [optCovers]

/-- Widening the second range preserves overlap (ends compared with
`none` as open). -/
theorem sessions_overlap_mono (g1 g2 s s2 : Int) (e e2 : Option Int)
    (hov : sessions_overlap g1 (some g2) s e = true)
    (hs : s2 ≤ s) (he : optCovers e e2) :
    sessions_overlap g1 (some g2) s2 e2 = true := by
  cases e2 with
  | none =>
    cases e with
    | none =>
      simp only [sessions_overlap, decide_eq_true_eq] at hov ⊢
      omega
    | some ev =>
      simp only [sessions_overlap, Bool.and_eq_true, decide_eq_true_eq] at hov ⊢
      omega
  | some ev2 =>
    cases e with
    | none => cases he
    | some ev =>
      simp only [optCovers] at he
      simp only [sessions_overlap, Bool.and_eq_true, decide_eq_true_eq] at hov ⊢
      omega

/-- Refolding a list whose adjacent pairs all split returns it unchanged. -/
theorem merge_zone_go_id (split : Option Int → Int → Bool) :
    ∀ (rest : List Session) (cur : Session),
    List.Chain' (fun a b => split a.stop b.start = true) (cur :: rest) →
    merge_zone_go split cur rest = cur :: rest := by
  intro rest
  induction rest with
  | nil => intro cur _; rfl
  | cons nxt rest2 ih =>
    intro cur hchain
    rcases List.chain'_cons.mp hchain with ⟨hsplit, hrest⟩
    simp only [merge_zone_go, hsplit, if_true]
    rw [ih nxt hrest]

/-- Two sorted lists that are permutations of each other and have
pairwise-distinct sort keys are equal. -/
theorem sorted_perm_nodup_start_eq :
    ∀ (l1 l2 : List Session), l1.Perm l2 →
    l1.Pairwise (fun a b => a.start ≤ b.start) →
    l2.Pairwise (fun a b => a.start ≤ b.start) →
    (l2.map Session.start).Nodup →
    l1 = l2 := by
  intro l1
  induction l1 with
  | nil =>
    intro l2 hperm _ _ _
    exact List.Perm.nil_eq hperm
  | cons a t1 ih =>
    intro l2 hperm hs1 hs2 hnd
    cases l2 with
    | nil => exact absurd hperm.symm (by simp)
    | cons b t2 =>
      rcases List.pairwise_cons.mp hs1 with ⟨ha, ht1⟩
      rcases List.pairwise_cons.mp hs2 with ⟨hb, ht2⟩
      have hab : a = b := by
        have hain : a ∈ b :: t2 := hperm.mem_iff.mp (List.mem_cons_self a t1)
        have hbin : b ∈ a :: t1 := hperm.mem_iff.mpr (List.mem_cons_self b t2)
        rcases List.mem_cons.mp hain with h1 | h1
        · exact h1
        · rcases List.mem_cons.mp hbin with h2 | h2
          · exact h2.symm
          · have h3 : b.start ≤ a.start := hb a h1
            have h4 : a.start ≤ b.start := ha b h2
            have h5 : a.start = b.start := le_antisymm h4 h3
            simp only [List.map_cons, List.nodup_cons] at hnd
            exact absurd (h5 ▸ List.mem_map_of_mem Session.start h1) hnd.1
      subst hab
      have hperm2 : t1.Perm t2 := hperm.cons_inv
      simp only [List.map_cons, List.nodup_cons] at hnd
      rw [ih t2 hperm2 ht1 ht2 hnd.2]

/-- Appending one session into the zone grouping permutes to appending it
at the end. -/
theorem alistAppend_flatten_perm (s : Session) :
    ∀ (m : List (String × List Session)),
    (((alistAppend s.zone s m).map Prod.snd).flatten).Perm
      ((m.map Prod.snd).flatten ++ [s]) := by
  intro m
  induction m with
  | nil => simp [alistAppend]
  | cons q rest ihm =>
    obtain ⟨k0, vs⟩ := q
    simp only [alistAppend]
    by_cases hk : (k0 == s.zone) = true
    · rw [if_pos hk]
      simp only [List.map_cons, List.flatten_cons]
      rw [List.append_assoc, List.append_assoc]
      exact List.Perm.append_left vs (List.perm_append_comm)
    · rw [if_neg hk]
      simp only [List.map_cons, List.flatten_cons]
      rw [List.append_assoc]
      exact List.Perm.append_left vs ihm

/-- Flattening the grouped-by-zone lists recovers a permutation of the
input. -/
theorem byZone_flatten_perm_aux :
    ∀ (X : List Session) (m : List (String × List Session)),
    (((X.foldl (fun m s => alistAppend s.zone s m) m).map Prod.snd).flatten).Perm
      ((m.map Prod.snd).flatten ++ X) := by
  intro X
  induction X with
  | nil =>
    intro m
    simp
  | cons s X2 ih =>
    intro m
    simp only [List.foldl_cons]
    refine (ih (alistAppend s.zone s m)).trans ?_
    refine (List.Perm.append_right X2 (alistAppend_flatten_perm s m)).trans ?_
    rw [List.append_assoc]
    exact List.Perm.refl _

theorem byZone_flatten_perm (X : List Session) :
    (((byZone X).map Prod.snd).flatten).Perm X := by
  simpa using byZone_flatten_perm_aux X []

theorem zoneChainB_true_iff (a b : Session) :
    zoneChainB a b = true ↔ ∃ ea, a.stop = some ea ∧ ea ≤ b.start := by
  unfold zoneChainB
  rcases a.stop with _ | ea <;> simp

/-- The specification of one zone's fold: the output starts with the first
session's start, its adjacent pairs all satisfy the split predicate, it is
chained, it covers every input session (same or earlier start, same or
later end), it stays in the zone, it is well formed, and its starts form a
subsequence of the input starts. -/
theorem merge_zone_go_spec (split : Option Int → Int → Bool) (z : String) :
    ∀ (rest : List Session) (cur : Session),
    cur.zone = z →
    (∀ s ∈ rest, s.zone = z) →
    List.Chain' (fun a b => zoneChainB a b = true) (cur :: rest) →
    List.Pairwise (fun a b => a.start ≤ b.start) (cur :: rest) →
    (∀ s ∈ cur :: rest, sessWf s) →
    (∃ m0 mrest, merge_zone_go split cur rest = m0 :: mrest ∧
      m0.start = cur.start) ∧
    List.Chain' (fun a b => split a.stop b.start = true)
      (merge_zone_go split cur rest) ∧
    List.Chain' (fun a b => zoneChainB a b = true)
      (merge_zone_go split cur rest) ∧
    (∀ s ∈ cur :: rest, ∃ t ∈ merge_zone_go split cur rest,
      t.start ≤ s.start ∧ optCovers s.stop t.stop) ∧
    (∀ t ∈ merge_zone_go split cur rest, t.zone = z) ∧
    (∀ t ∈ merge_zone_go split cur rest, sessWf t) ∧
    ((merge_zone_go split cur rest).map Session.start).Sublist
      ((cur :: rest).map Session.start) := by
  intro rest
  induction rest with
  | nil =>
    intro cur hz _ _ _ hwf
    refine ⟨⟨cur, [], rfl, rfl⟩, ?_, ?_, ?_, ?_, ?_, ?_⟩
    · exact List.chain'_singleton _
    · exact List.chain'_singleton _
    · intro s hs
      rcases List.mem_singleton.mp hs with rfl
      exact ⟨s, List.mem_singleton_self _, le_refl _, optCovers_refl _⟩
    · intro t ht
      rcases List.mem_singleton.mp ht with rfl
      exact hz
    · intro t ht
      rcases List.mem_singleton.mp ht with rfl
      exact hwf t (List.mem_singleton_self _)
    · exact List.Sublist.refl _
  | cons nxt rest2 ih =>
    intro cur hz hzs hchain hpair hwf
    rcases List.chain'_cons.mp hchain with ⟨hcn, hchain2⟩
    rcases (zoneChainB_true_iff cur nxt).mp hcn with ⟨ea, hea, heale⟩
    rcases List.pairwise_cons.mp hpair with ⟨hcur_le, hpair2⟩
    by_cases hsp : split cur.stop nxt.start = true
    · have hm : merge_zone_go split cur (nxt :: rest2) =
          cur :: merge_zone_go split nxt rest2 := by
        simp [merge_zone_go, hsp]
      obtain ⟨hhead, hsplit2, hchain3, hcov, hzone, hwf2, hsub⟩ :=
        ih nxt (hzs nxt (List.mem_cons_self _ _))
          (fun s hs => hzs s (List.mem_cons_of_mem _ hs)) hchain2 hpair2
          (fun s hs => hwf s (List.mem_cons_of_mem _ hs))
      obtain ⟨m0, mrest, hm0, hm0s⟩ := hhead
      rw [hm]
      refine ⟨⟨cur, _, rfl, rfl⟩, ?_, ?_, ?_, ?_, ?_, ?_⟩
      · rw [hm0]
        refine List.chain'_cons.mpr ⟨?_, hm0 ▸ hsplit2⟩
        rw [hm0s]
        exact hsp
      · rw [hm0]
        refine List.chain'_cons.mpr ⟨?_, hm0 ▸ hchain3⟩
        rw [zoneChainB_true_iff]
        exact ⟨ea, hea, by rw [hm0s]; exact heale⟩
      · intro s hs
        rcases List.mem_cons.mp hs with rfl | hs
        · exact ⟨s, List.mem_cons_self _ _, le_refl _, optCovers_refl _⟩
        · obtain ⟨t, ht, h1, h2⟩ := hcov s hs
          exact ⟨t, List.mem_cons_of_mem _ ht, h1, h2⟩
      · intro t ht
        rcases List.mem_cons.mp ht with rfl | ht
        · exact hz
        · exact hzone t ht
      · intro t ht
        rcases List.mem_cons.mp ht with rfl | ht
        · exact hwf _ (List.mem_cons_self _ _)
        · exact hwf2 t ht
      · simpa using hsub.cons₂ cur.start
    · have hm : merge_zone_go split cur (nxt :: rest2) =
          merge_zone_go split { cur with stop := nxt.stop } rest2 := by
        simp [merge_zone_go, hsp]
      have hchain2b : List.Chain'
          (fun a b => zoneChainB a b = true)
          ({ cur with stop := nxt.stop } :: rest2) := by
        rcases rest2 with _ | ⟨r0, rr⟩
        · exact List.chain'_singleton _
        · rcases List.chain'_cons.mp hchain2 with ⟨hnr0, hrr⟩
          refine List.chain'_cons.mpr ⟨?_, hrr⟩
          simpa only [zoneChainB] using hnr0
      have hpair2b : List.Pairwise (fun a b => a.start ≤ b.start)
          ({ cur with stop := nxt.stop } :: rest2) := by
        refine List.pairwise_cons.mpr ⟨?_, (List.pairwise_cons.mp hpair2).2⟩
        intro b hb
        exact hcur_le b (List.mem_cons_of_mem _ hb)
      have hwfb : ∀ s ∈ { cur with stop := nxt.stop } :: rest2, sessWf s := by
        intro s hs
        rcases List.mem_cons.mp hs with rfl | hs
        · intro e he
          have h1 : cur.start ≤ ea := hwf cur (List.mem_cons_self _ _) ea hea
          have h2 : nxt.start ≤ e :=
            hwf nxt (List.mem_cons_of_mem _ (List.mem_cons_self _ _)) e he
          show cur.start ≤ e
          omega
        · exact hwf s (List.mem_cons_of_mem _ (List.mem_cons_of_mem _ hs))
      obtain ⟨hhead, hsplit2, hchain3, hcov, hzone, hwf2, hsub⟩ :=
        ih { cur with stop := nxt.stop } hz
          (fun s hs => hzs s (List.mem_cons_of_mem _ hs)) hchain2b hpair2b hwfb
      rw [hm]
      refine ⟨hhead, hsplit2, hchain3, ?_, hzone, hwf2, ?_⟩
      · intro s hs
        rcases List.mem_cons.mp hs with rfl | hs
        · obtain ⟨t, ht, h1, h2⟩ :=
            hcov { s with stop := nxt.stop } (List.mem_cons_self _ _)
          refine ⟨t, ht, h1, ?_⟩
          rw [hea]
          cases hts : t.stop with
          | none => trivial
          | some ty =>
            rw [hts] at h2
            cases hns : nxt.stop with
            | none => rw [hns] at h2; cases h2
            | some en =>
              rw [hns] at h2
              simp only [optCovers] at h2 ⊢
              have h3 : nxt.start ≤ en :=
                hwf nxt (List.mem_cons_of_mem _ (List.mem_cons_self _ _)) en hns
              omega
        · rcases List.mem_cons.mp hs with rfl | hs
          · obtain ⟨t, ht, h1, h2⟩ :=
              hcov { cur with stop := s.stop } (List.mem_cons_self _ _)
            exact ⟨t, ht, le_trans h1 (hcur_le s (List.mem_cons_self _ _)), h2⟩
          · exact hcov s (List.mem_cons_of_mem _ hs)
      · refine hsub.trans ?_
        simp only [List.map_cons]
        exact List.Sublist.cons₂ _ (List.sublist_cons_self _ _)

/-- Boolean form of `sessWf`, for concrete evaluation. -/
def sessWfB (s : Session) : Bool :=
  match s.stop with
  | none => true
  | some e => decide (s.start ≤ e)

theorem sessWfB_iff (s : Session) : sessWfB s = true ↔ sessWf s := by
  cases hs : s.stop with
  | none => simp [sessWfB, sessWf, hs]
  | some e => simp [sessWfB, sessWf, hs]

/-- The per-zone body of `merge_sessions`: sort the zone's sessions and
fold them with `merge_zone_go`. -/
def mergeBlock (g : Option Int) (bz : List (String × List Session))
    (p : String × List Session) : List Session :=
  match sortBy sessLE p.2 with
  | [] => []
  | c :: rest => merge_zone_go (should_split g bz p.1) c rest

theorem filter_flatten_eq {α : Type} (p : α → Bool) :
    ∀ (L : List (List α)),
    L.flatten.filter p = (L.map fun l => l.filter p).flatten := by
  intro L
  induction L with
  | nil => rfl
  | cons l rest ih => simp [List.filter_append, ih]

theorem map_flatten_eq {α β : Type} (f : α → β) :
    ∀ (L : List (List α)),
    L.flatten.map f = (L.map (List.map f)).flatten := by
  intro L
  induction L with
  | nil => rfl
  | cons l rest ih => simp [ih]

theorem flatten_map_sublist {α β : Type} (f h : α → List β) :
    ∀ (l : List α), (∀ x ∈ l, (f x).Sublist (h x)) →
    ((l.map f).flatten).Sublist ((l.map h).flatten) := by
  intro l
  induction l with
  | nil => intro _; simp
  | cons a rest ih =>
    intro hall
    simp only [List.map_cons, List.flatten_cons]
    exact (hall a (List.mem_cons_self _ _)).append
      (ih fun x hx => hall x (List.mem_cons_of_mem _ hx))

/-- Filtering the concatenation of zone-homogeneous blocks by a zone
picks out at most the one block of that zone. -/
theorem filter_blocks_eq (z : String)
    (F : String × List Session → List Session) :
    ∀ (bz : List (String × List Session)),
    (bz.map Prod.fst).Nodup →
    (∀ p ∈ bz, ∀ t ∈ F p, t.zone = p.1) →
    ((bz.map F).flatten.filter fun s => s.zone == z) = [] ∨
    ∃ q ∈ bz, q.1 = z ∧
      ((bz.map F).flatten.filter fun s => s.zone == z) = F q := by
  intro bz
  induction bz with
  | nil => intro _ _; left; rfl
  | cons p rest ih =>
    intro hnd hzone
    simp only [List.map_cons, List.flatten_cons, List.filter_append]
    by_cases hpz : p.1 = z
    · have hhead : (F p).filter (fun s => s.zone == z) = F p := by
        rw [List.filter_eq_self]
        intro t ht
        exact beq_iff_eq.mpr ((hzone p (List.mem_cons_self _ _) t ht).trans hpz)
      have htail : ((rest.map F).flatten.filter fun s => s.zone == z) = [] := by
        rw [List.filter_eq_nil_iff]
        intro t ht
        rcases List.mem_flatten.mp ht with ⟨l, hl, htl⟩
        rcases List.mem_map.mp hl with ⟨q, hq, rfl⟩
        have htz := hzone q (List.mem_cons_of_mem _ hq) t htl
        have hqk : q.1 ≠ z := by
          intro he
          simp only [List.map_cons, List.nodup_cons] at hnd
          exact hnd.1 (by
            rw [hpz, ← he]
            exact List.mem_map_of_mem Prod.fst hq)
        simp [htz, hqk]
      rw [hhead, htail]
      right
      exact ⟨p, List.mem_cons_self _ _, hpz, by simp⟩
    · have hhead : (F p).filter (fun s => s.zone == z) = [] := by
        rw [List.filter_eq_nil_iff]
        intro t ht
        have := hzone p (List.mem_cons_self _ _) t ht
        simp [this, hpz]
      rw [hhead]
      simp only [List.nil_append]
      have hnd2 : (rest.map Prod.fst).Nodup := by
        simp only [List.map_cons, List.nodup_cons] at hnd
        exact hnd.2
      rcases ih hnd2 (fun q hq => hzone q (List.mem_cons_of_mem _ hq)) with
        hl | ⟨q, hq, hqz, heq⟩
      · left; exact hl
      · right; exact ⟨q, List.mem_cons_of_mem _ hq, hqz, heq⟩

/-- The merged block of one `byZone` entry under builder-shaped input:
its boundaries all split, it stays in the entry's zone, it is well
formed, its starts are a subsequence of the entry's starts, it covers
the entry's sessions, and it is sorted by start. -/
theorem mergeBlock_spec (raw : List Session) (g : Option Int)
    (Hsort : raw.Pairwise fun a b => a.start ≤ b.start)
    (Hchain : ∀ z ∈ raw.map Session.zone,
      List.Chain' (fun a b => zoneChainB a b = true)
        (raw.filter fun s => s.zone == z))
    (Hwf : ∀ s ∈ raw, sessWf s)
    (p : String × List Session) (hp : p ∈ byZone raw) :
    List.Chain'
      (fun a b => should_split g (byZone raw) p.1 a.stop b.start = true)
      (mergeBlock g (byZone raw) p) ∧
    (∀ t ∈ mergeBlock g (byZone raw) p, t.zone = p.1) ∧
    (∀ t ∈ mergeBlock g (byZone raw) p, sessWf t) ∧
    ((mergeBlock g (byZone raw) p).map Session.start).Sublist
      (p.2.map Session.start) ∧
    (∀ s ∈ p.2, ∃ t ∈ mergeBlock g (byZone raw) p,
      t.start ≤ s.start ∧ optCovers s.stop t.stop) ∧
    (mergeBlock g (byZone raw) p).Pairwise
      (fun a b => a.start ≤ b.start) := by
  have hval := byZone_val raw p hp
  have hfsorted : p.2.Pairwise (fun a b => a.start ≤ b.start) := by
    rw [hval]
    exact Hsort.filter _
  have hsLE : p.2.Pairwise (fun a b => sessLE a b = true) :=
    hfsorted.imp fun h => decide_eq_true h
  have hid : sortBy sessLE p.2 = p.2 := sortBy_sorted_id hsLE
  cases hp2 : p.2 with
  | nil =>
    have hb : mergeBlock g (byZone raw) p = [] := by
      simp only [mergeBlock]
      rw [hp2]
      rfl
    rw [hb]
    refine ⟨List.chain'_nil, ?_, ?_, ?_, ?_, List.Pairwise.nil⟩
    · intro t ht; cases ht
    · intro t ht; cases ht
    · simp
    · intro s hs; cases hs
  | cons c rest =>
    have hmem2 : ∀ s ∈ c :: rest, s ∈ raw ∧ s.zone = p.1 := by
      intro s hs
      have : s ∈ p.2 := by rw [hp2]; exact hs
      rw [hval] at this
      rcases List.mem_filter.mp this with ⟨hr, hb⟩
      exact ⟨hr, eq_of_beq hb⟩
    have hb : mergeBlock g (byZone raw) p =
        merge_zone_go (should_split g (byZone raw) p.1) c rest := by
      simp only [mergeBlock]
      rw [hid.trans hp2]
    have hkey : p.1 ∈ raw.map Session.zone := by
      obtain ⟨hr, hz⟩ := hmem2 c (List.mem_cons_self _ _)
      exact List.mem_map.mpr ⟨c, hr, hz⟩
    have hch : List.Chain' (fun a b => zoneChainB a b = true) (c :: rest) := by
      rw [← hp2, hval]
      exact Hchain p.1 hkey
    have hpw : List.Pairwise (fun a b => a.start ≤ b.start) (c :: rest) := by
      rw [← hp2]
      exact hfsorted
    obtain ⟨_, hsplit, _, hcov, hzone, hwf, hsub⟩ :=
      merge_zone_go_spec (should_split g (byZone raw) p.1) p.1 rest c
        (hmem2 c (List.mem_cons_self _ _)).2
        (fun s hs => (hmem2 s (List.mem_cons_of_mem _ hs)).2)
        hch hpw (fun s hs => Hwf s (hmem2 s hs).1)
    rw [hb]
    refine ⟨hsplit, hzone, hwf, hsub, hcov, ?_⟩
    have hpwmap : ((c :: rest).map Session.start).Pairwise (· ≤ ·) :=
      List.pairwise_map.mpr hpw
    exact List.pairwise_map.mp (hpwmap.sublist hsub)

/-- A split decision stays positive when re-evaluated over a list that
covers every session of the original (same zone, earlier-or-equal
start, later-or-equal end). -/
theorem should_split_transfer (g : Option Int) (raw out : List Session)
    (z : String)
    (hcov : ∀ s ∈ raw, ∃ t ∈ out,
      t.zone = s.zone ∧ t.start ≤ s.start ∧ optCovers s.stop t.stop)
    (ce : Option Int) (ns : Int)
    (h : should_split g (byZone raw) z ce ns = true) :
    should_split g (byZone out) z ce ns = true := by
  cases ce with
  | none => rfl
  | some c =>
    simp only [should_split] at h ⊢
    rw [Bool.or_eq_true] at h ⊢
    rcases h with h | h
    · left; exact h
    · right
      rw [other_pos_between_iff] at h ⊢
      obtain ⟨s, hs, hne, hov⟩ := h
      obtain ⟨t, ht, hz, hst, hcv⟩ := hcov s hs
      refine ⟨t, ht, by rw [hz]; exact hne, ?_⟩
      exact sessions_overlap_mono c ns s.start t.start s.stop t.stop hov hst hcv

/-- `merge_sessions` on builder-shaped input yields a list that is sorted
by start with pairwise-distinct starts and whose per-zone boundaries all
split when re-evaluated over its own grouping. -/
theorem merge_out_props (raw : List Session) (g : Option Int)
    (Hsort : raw.Pairwise fun a b => a.start ≤ b.start)
    (Hnd : (raw.map Session.start).Nodup)
    (Hchain : ∀ z ∈ raw.map Session.zone,
      List.Chain' (fun a b => zoneChainB a b = true)
        (raw.filter fun s => s.zone == z))
    (Hwf : ∀ s ∈ raw, sessWf s) :
    (merge_sessions raw g).Pairwise (fun a b => a.start ≤ b.start) ∧
    ((merge_sessions raw g).map Session.start).Nodup ∧
    (∀ z, List.Chain'
      (fun a b =>
        should_split g (byZone (merge_sessions raw g)) z a.stop b.start = true)
      ((merge_sessions raw g).filter fun s => s.zone == z)) := by
  have hspec := fun p hp => mergeBlock_spec raw g Hsort Hchain Hwf p hp
  have hms : merge_sessions raw g =
      sortBy sessLE (((byZone raw).map (mergeBlock g (byZone raw))).flatten) :=
    rfl
  have hsorted : (merge_sessions raw g).Pairwise
      (fun a b => a.start ≤ b.start) := by
    rw [hms]
    exact (sortBy_pairwise sessLE_total sessLE_trans _).imp
      fun h => of_decide_eq_true h
  have hstarts : ((((byZone raw).map
        (mergeBlock g (byZone raw))).flatten).map Session.start).Sublist
      ((((byZone raw).map Prod.snd).flatten).map Session.start) := by
    rw [map_flatten_eq, map_flatten_eq, List.map_map, List.map_map]
    exact flatten_map_sublist _ _ _ (fun p hp => (hspec p hp).2.2.2.1)
  have hpermr : ((((byZone raw).map Prod.snd).flatten).map
      Session.start).Perm (raw.map Session.start) :=
    (byZone_flatten_perm raw).map Session.start
  have hndM : ((((byZone raw).map
      (mergeBlock g (byZone raw))).flatten).map Session.start).Nodup := by
    have hsp := (hstarts.subperm).trans hpermr.subperm
    obtain ⟨l2, hp2, hs2⟩ := hsp
    exact (hp2.nodup_iff).mp (hs2.nodup Hnd)
  have hnd : ((merge_sessions raw g).map Session.start).Nodup := by
    rw [hms]
    exact (((sortBy_perm sessLE _).map Session.start).nodup_iff).mpr hndM
  have hcov : ∀ s ∈ raw, ∃ t ∈ merge_sessions raw g,
      t.zone = s.zone ∧ t.start ≤ s.start ∧ optCovers s.stop t.stop := by
    intro s hs
    rcases List.mem_map.mp (byZone_cov raw s hs) with ⟨p, hp, hfst⟩
    have hval := byZone_val raw p hp
    have hsf : s ∈ p.2 := by
      rw [hval]
      exact List.mem_filter.mpr ⟨hs, beq_iff_eq.mpr hfst.symm⟩
    obtain ⟨t, ht, h1, h2⟩ := (hspec p hp).2.2.2.2.1 s hsf
    have htz : t.zone = s.zone := ((hspec p hp).2.1 t ht).trans hfst
    have htout : t ∈ merge_sessions raw g := by
      rw [hms]
      exact mem_sortBy.mpr (List.mem_flatten.mpr
        ⟨mergeBlock g (byZone raw) p, List.mem_map_of_mem _ hp, ht⟩)
    exact ⟨t, htout, htz, h1, h2⟩
  refine ⟨hsorted, hnd, ?_⟩
  intro z
  have hfilter : ((merge_sessions raw g).filter fun s => s.zone == z) = [] ∨
      ∃ q ∈ byZone raw, q.1 = z ∧
        ((merge_sessions raw g).filter fun s => s.zone == z) =
          mergeBlock g (byZone raw) q := by
    rw [hms, filter_sortBy sessLE_total sessLE_trans]
    rcases filter_blocks_eq z (mergeBlock g (byZone raw)) (byZone raw)
        (byZone_keys_nodup raw) (fun p hp => (hspec p hp).2.1) with
      h0 | ⟨q, hq, hqz, heq⟩
    · left
      rw [h0]
      rfl
    · right
      refine ⟨q, hq, hqz, ?_⟩
      rw [heq]
      exact sortBy_sorted_id ((hspec q hq).2.2.2.2.2.imp
        fun h => decide_eq_true h)
  rcases hfilter with h0 | ⟨q, hq, hqz, heq⟩
  · rw [h0]
    exact List.chain'_nil
  · rw [heq]
    have hchainq := (hspec q hq).1
    rw [hqz] at hchainq
    exact hchainq.imp fun a b hab =>
      should_split_transfer g raw (merge_sessions raw g) z hcov _ _ hab

/-- A list that is sorted by start with distinct starts and whose
per-zone adjacent pairs all split over its own grouping is a fixed point
of `merge_sessions`. -/
theorem merge_sessions_fixed (out : List Session) (g : Option Int)
    (hsorted : out.Pairwise fun a b => a.start ≤ b.start)
    (hnd : (out.map Session.start).Nodup)
    (hchain : ∀ z, List.Chain'
      (fun a b => should_split g (byZone out) z a.stop b.start = true)
      (out.filter fun s => s.zone == z)) :
    merge_sessions out g = out := by
  have hms : merge_sessions out g =
      sortBy sessLE (((byZone out).map (mergeBlock g (byZone out))).flatten) :=
    rfl
  have hblocks : ∀ p ∈ byZone out, mergeBlock g (byZone out) p = p.2 := by
    intro p hp
    have hval := byZone_val out p hp
    have hfsort : p.2.Pairwise (fun a b => sessLE a b = true) := by
      rw [hval]
      exact (hsorted.filter _).imp fun h => decide_eq_true h
    have hid : sortBy sessLE p.2 = p.2 := sortBy_sorted_id hfsort
    cases hp2 : p.2 with
    | nil =>
      simp only [mergeBlock]
      rw [hp2]
      rfl
    | cons c rest =>
      have hb : mergeBlock g (byZone out) p =
          merge_zone_go (should_split g (byZone out) p.1) c rest := by
        simp only [mergeBlock]
        rw [hid.trans hp2]
      rw [hb]
      refine merge_zone_go_id _ rest c ?_
      have := hchain p.1
      rw [← hval, hp2] at this
      exact this
  have hmap : (byZone out).map (mergeBlock g (byZone out)) =
      (byZone out).map Prod.snd :=
    List.map_congr_left hblocks
  rw [hms, hmap]
  have hperm : (sortBy sessLE (((byZone out).map Prod.snd).flatten)).Perm out :=
    (sortBy_perm _ _).trans (byZone_flatten_perm out)
  have hsorted2 : (sortBy sessLE
      (((byZone out).map Prod.snd).flatten)).Pairwise
      (fun a b => a.start ≤ b.start) :=
    (sortBy_pairwise sessLE_total sessLE_trans _).imp
      fun h => of_decide_eq_true h
  exact sorted_perm_nodup_start_eq _ _ hperm hsorted2 hsorted hnd

/-- Boolean adjacent-pairs chain, for concrete evaluation. -/
def chainB (R : Session → Session → Bool) : List Session → Bool
  | [] => true
  | [_] => true
  | a :: b :: l => R a b && chainB R (b :: l)

theorem chainB_iff (R : Session → Session → Bool) :
    ∀ l : List Session,
    chainB R l = true ↔ List.Chain' (fun a b => R a b = true) l := by
  intro l
  induction l with
  | nil => simp [chainB]
  | cons a l ih =>
    cases l with
    | nil => simp [chainB]
    | cons b l2 =>
      rw [show chainB R (a :: b :: l2) = (R a b && chainB R (b :: l2))
          from rfl,
        Bool.and_eq_true, ih, List.chain'_cons]

/-- C9: the Session Merger is idempotent on builder-shaped input —
`merge_sessions (merge_sessions raw gap) gap = merge_sessions raw gap`
whenever `raw` is sorted by start with pairwise-distinct starts, each
zone's sessions are chained (every session but possibly the zone's last
is closed and ends no later than the next starts), and every closed
session starts no later than it ends; the Session Builder produces
exactly such lists from strictly increasing event streams.  (For
arbitrary inputs idempotence fails, see the counterexample.) -/
theorem c9_merge_idempotent_for_builder_sessions
    (raw : List Session) (g : Option Int)
    (Hsort : raw.Pairwise fun a b => a.start ≤ b.start)
    (Hnd : (raw.map Session.start).Nodup)
    (Hchain : ∀ z ∈ raw.map Session.zone,
      chainB zoneChainB (raw.filter fun s => s.zone == z) = true)
    (Hwf : ∀ s ∈ raw, sessWfB s = true) :
    merge_sessions (merge_sessions raw g) g = merge_sessions raw g := by
  have Hwf2 : ∀ s ∈ raw, sessWf s := fun s hs => (sessWfB_iff s).mp (Hwf s hs)
  have Hchain2 : ∀ z ∈ raw.map Session.zone,
      List.Chain' (fun a b => zoneChainB a b = true)
        (raw.filter fun s => s.zone == z) :=
    fun z hz => (chainB_iff zoneChainB _).mp (Hchain z hz)
  obtain ⟨h1, h2, h3⟩ := merge_out_props raw g Hsort Hnd Hchain2 Hwf2
  exact merge_sessions_fixed (merge_sessions raw g) g h1 h2 h3

/-- C9, witness: a builder-shaped list (two chained A sessions and one B
session) satisfies the hypotheses and merging it twice equals merging it
once. -/
theorem c9_merge_idempotent_for_builder_sessions_witness :
    merge_sessions (merge_sessions
      [⟨"A", 0, some 50⟩, ⟨"A", 60, some 70⟩, ⟨"B", 200, some 210⟩]
      (some 100)) (some 100) =
    merge_sessions
      [⟨"A", 0, some 50⟩, ⟨"A", 60, some 70⟩, ⟨"B", 200, some 210⟩]
      (some 100) :=
  c9_merge_idempotent_for_builder_sessions
    [⟨"A", 0, some 50⟩, ⟨"A", 60, some 70⟩, ⟨"B", 200, some 210⟩]
    (some 100) (by decide) (by decide) (by decide) (by decide)

end Avero
